import Mathlib

/-!
Verification of the Shewhart control-limit engine
(`src/shewhart/shewhart_functions.py`) against its specification.

The engine is embedded shallowly:

* A pandas data frame is a list of rows; a row is an association list from
  column names to numeric values (`Row`, `DF`).  Column assignment
  (`dat[c] = ...`) is `setCol` (overwrite in place if the column exists,
  append at the end otherwise, like pandas), column lookup is `getCol`,
  and the final `dat[cols]` projection is `selectCols`.
* Machine floats are modelled by an arbitrary linear ordered field
  (instantiated at `ℚ` for executable witnesses and at `ℝ` where the
  code's `** .5` matters); division is the field's total division, so the
  places where the Python code divides by zero (producing NaN/inf) are the
  places where the embedding's division denominator is zero.
* numpy's `** .5` is modelled by an explicit `sqrtFn` parameter,
  instantiated with `Real.sqrt` for the real-valued reading.
* Moving-range columns (`mr0`, `mr_p_zval`, `mr_u_zval`) hold NaN in their
  first position in pandas and are consumed only through
  sum / count / comparison-filter aggregations that all skip that NaN
  entry; they are therefore modelled as the length-(n-1) list of pairwise
  absolute differences (`mrList`) rather than as stored columns, and the
  frame-constant scalar columns of the single-stratum paths
  (`mr_bar0_num`, ..., `mr_bar_std`) are modelled as `let`-bound scalars.
  None of those names appears in the returned column selection, and the
  claims about column passthrough exclude them explicitly.
-/

namespace Shewhart

/-- A data-frame row: an association list from column names to values. -/
abbrev Row (α : Type) := List (String × α)

/-- A data frame: a list of rows. -/
abbrev DF (α : Type) := List (Row α)

variable {α : Type} [LinearOrderedField α]

/-- Column lookup, first occurrence wins (pandas column access). -/
def getCol : Row α → String → α
  | [], _ => 0
  | (c0, v) :: rest, c => if c0 = c then v else getCol rest c

/-- Column assignment `dat[c] = v` on one row: overwrite the first
occurrence in place, append at the end if absent (pandas semantics). -/
def setCol : Row α → String → α → Row α
  | [], c, v => [(c, v)]
  | (c0, v0) :: rest, c, v =>
      if c0 = c then (c0, v) :: rest else (c0, v0) :: setCol rest c v

/-- The column names of a row, in order. -/
def rowCols (r : Row α) : List String := r.map Prod.fst

/-- The projection `dat[cs]` on one row. -/
def selectCols (cs : List String) (r : Row α) : Row α :=
  cs.map fun c => (c, getCol r c)

/-- The tuple of values of the `strats` columns of a row (a group key). -/
def keyOf (strats : List String) (r : Row α) : List α :=
  strats.map (getCol r)

/-- Lexicographic `≤` on equal-length key tuples, as `sort_values` with
`ascending=True` orders multi-column keys. -/
def keyLe : List α → List α → Bool
  | [], _ => true
  | _ :: _, [] => false
  | a :: as, b :: bs => if a < b then true else if b < a then false else keyLe as bs

/-- Row comparison by the listed sort columns. -/
def rowLe (cols : List String) (r1 r2 : Row α) : Bool :=
  keyLe (cols.map (getCol r1)) (cols.map (getCol r2))

/-- Stable insertion into a sorted list (helper of `sortRowsBy`). -/
def orderedInsertRow (le : Row α → Row α → Bool) (a : Row α) : DF α → DF α
  | [] => [a]
  | b :: l => if le a b then a :: b :: l else b :: orderedInsertRow le a l

/-- Stable sort of the rows (pandas `sort_values` with a stable order on
ties, `reset_index(drop=True)`). -/
def sortRowsBy (le : Row α → Row α → Bool) : DF α → DF α
  | [] => []
  | a :: l => orderedInsertRow le a (sortRowsBy le l)

/-- `left.merge(right, on=onCols, how='inner')`: for each left row, in left
order, one output row per right row with an equal key; the right row's
non-key columns are appended after the left row's columns. -/
def mergeRow (onCols : List String) (l r : Row α) : Row α :=
  l ++ r.filter fun p => decide (p.1 ∉ onCols)

/-- Inner merge of two frames on the given key columns. -/
def merge (left right : DF α) (onCols : List String) : DF α :=
  left.flatMap fun l =>
    (right.filter fun r => decide (keyOf onCols r = keyOf onCols l)).map (mergeRow onCols l)

/-- An aggregate frame (the result of `groupby(strats).agg(...)`): one row
per key, holding the key columns and a single computed column. -/
def aggTable (strats : List String) (keys : List (List α)) (cname : String)
    (f : List α → α) : DF α :=
  keys.map fun k => strats.zip k ++ [(cname, f k)]

/-- One column assignment `dat[c] = <expression of the row>` as a per-row
stage: every line of the source that writes a column is one `map` of a
`setWith`. -/
def setWith (c : String) (f : Row α → α) (r : Row α) : Row α :=
  setCol r c (f r)

/-! ### The two-pass moving-range screen (shared I / P-prime / U-prime) -/

/-- The moving-range sequence: absolute difference between each value and
its predecessor (the first row's NaN entry is not represented; pandas
skips it in every use). -/
def mrList (vals : List α) : List α :=
  (vals.zip vals.tail).map fun p => |p.2 - p.1|

/-- Initial dispersion estimate: `sum(mr) / (len(dat) - 1)`. -/
def mr0_bar (vals : List α) : α :=
  (mrList vals).sum / ((vals.length : α) - 1)

/-- Upper screening threshold `3.27 * mr0_bar`. -/
def ul_mr (vals : List α) : α :=
  (327 / 100) * mr0_bar vals

/-- The moving ranges retained by the screen (`mr0 <= ul_mr`; the first
row's NaN moving range is always filtered out in pandas and is not in
`mrList`). -/
def mrRetained (vals : List α) : List α :=
  (mrList vals).filter fun m => decide (m ≤ ul_mr vals)

/-- Screened dispersion estimate: sum of the retained moving ranges over
their count. -/
def mr_bar (vals : List α) : α :=
  (mrRetained vals).sum / ((mrRetained vals).length : α)

/-- The special-cause weight (the shared `np.where` scorer of lines
155-163, 336-354, 525-543). -/
def scWeight (val lcl ucl center : α) : α :=
  if val < lcl then (lcl - val) / (center - lcl) * (-1)
  else if val > ucl then (val - ucl) / (ucl - center)
  else 0

/-! ### `i_chart_limits` (source lines 16-165) -/

/-- The `multi_strats == False` I pipeline (lines 87-163); `dat` already
carries the `val` column. -/
def i_chart_single (dat : DF α) (focal_val sort_val : String) : DF α :=
  let sorted := sortRowsBy (rowLe [sort_val]) dat
  let vals := sorted.map fun r => getCol r "val"
  let mrb := mr_bar vals
  let ibar := (sorted.map fun r => getCol r focal_val).sum / (sorted.length : α)
  let d1 := sorted.map (setWith "i_bar" fun _ => ibar)
  let d2 := d1.map (setWith "lcl" fun r => getCol r "i_bar" - (266 / 100) * mrb)
  let d3 := d2.map (setWith "ucl" fun r => getCol r "i_bar" + (266 / 100) * mrb)
  d3.map (setWith "sc_weight" fun r =>
    scWeight (getCol r "val") (getCol r "lcl") (getCol r "ucl") (getCol r "i_bar"))

/-- The `multi_strats == True` I pipeline (lines 108-163).  The grouped
moving-range aggregations of lines 120-128 and 135-140 are rendered per
key: `gvals k` is the group's `val` sequence in sorted row order (the
merge of line 132 appends only the `ul_mr` column, so the group's values
and keys in the frame being filtered at line 135 coincide with those of
`sorted`).  A key appears in the second aggregate (line 136) iff the
filtered frame `dat2` still contains a row of that group, i.e. iff the
group retains at least one moving range; the inner merge of line 143
drops the rows of any other group. -/
def i_chart_strat (dat : DF α) (focal_val sort_val : String)
    (strats : List String) : DF α :=
  let sorted := sortRowsBy (rowLe (strats ++ [sort_val])) dat
  let keys := (sorted.map (keyOf strats)).dedup
  let gvals := fun k =>
    (sorted.filter fun r => decide (keyOf strats r = k)).map fun r => getCol r "val"
  let d1 := merge sorted (aggTable strats keys "ul_mr" fun k => ul_mr (gvals k)) strats
  let keys2 := keys.filter fun k => decide ((mrRetained (gvals k)).length ≠ 0)
  let d2 := merge d1 (aggTable strats keys2 "mr_bar" fun k => mr_bar (gvals k)) strats
  let d3 := d2.map (setWith "i_bar" fun r =>
    ((d2.filter fun r2 => decide (keyOf strats r2 = keyOf strats r)).map
        fun r2 => getCol r2 focal_val).sum /
      ((d2.filter fun r2 => decide (keyOf strats r2 = keyOf strats r)).length : α))
  let d4 := d3.map (setWith "lcl" fun r => getCol r "i_bar" - (266 / 100) * getCol r "mr_bar")
  let d5 := d4.map (setWith "ucl" fun r => getCol r "i_bar" + (266 / 100) * getCol r "mr_bar")
  d5.map (setWith "sc_weight" fun r =>
    scWeight (getCol r "val") (getCol r "lcl") (getCol r "ucl") (getCol r "i_bar"))

/-- `i_chart_limits` (line 16): the I-model operation.  The empty/non-list
`strats` check of lines 80-83 (`print` + bare `return`, i.e. no output)
is modelled as `none`; the non-list arm is unrepresentable since `strats`
is typed as a list. -/
def i_chart_limits (dat : DF α) (focal_val sort_val : String)
    (multi_strats : Bool) (strats : List String) : Option (DF α) :=
  let original_columns := (dat.headD []).map Prod.fst
  let d0 := dat.map (setWith "val" fun r => getCol r focal_val)
  if multi_strats then
    if strats.length = 0 then none
    else
      some ((i_chart_strat d0 focal_val sort_val strats).map
        (selectCols (original_columns ++ ["i_bar", "lcl", "ucl", "sc_weight"])))
  else
    some ((i_chart_single d0 focal_val sort_val).map
      (selectCols (original_columns ++ ["i_bar", "lcl", "ucl", "sc_weight"])))

/-! ### `p_chart_limits` (source lines 173-356) and
`u_chart_limits` (source lines 364-545) -/

/-- The common tail of the P and U pipelines (lines 330-354 and 518-543):
standard and prime limits, then the two special-cause weights.
`barName`/`stdName` are `p_bar`/`p_std` resp. `u_bar`/`u_std`; `getMBS`
reads the screened `mr_bar_std` multiplier (a frame constant in the
single-stratum path, the merged `mr_bar_std` column in the stratified
path). -/
def pu_tail (barName stdName : String) (dat : DF α) (getMBS : Row α → α) : DF α :=
  let d1 := dat.map (setWith "lcl" fun r => getCol r barName - 3 * getCol r stdName)
  let d2 := d1.map (setWith "ucl" fun r => getCol r barName + 3 * getCol r stdName)
  let d3 := d2.map (setWith "lcl_prime" fun r =>
    getCol r barName - 3 * getCol r stdName * getMBS r)
  let d4 := d3.map (setWith "ucl_prime" fun r =>
    getCol r barName + 3 * getCol r stdName * getMBS r)
  let d5 := d4.map (setWith "sc_weight" fun r =>
    scWeight (getCol r "val") (getCol r "lcl") (getCol r "ucl") (getCol r barName))
  d5.map (setWith "sc_weight_prime" fun r =>
    scWeight (getCol r "val") (getCol r "lcl_prime") (getCol r "ucl_prime") (getCol r barName))

/-- The `multi_strats == False` P pipeline (lines 249-251, 259-290,
330-354); `dat` already carries the `val` column.  The scalar columns
`mr_bar0_num` ... `mr_bar_std` of lines 274-289 are `let`-bound scalars
here; the screened z-moving-range quantities coincide with the shared
screen helpers applied to the sorted `p_zval` sequence. -/
def p_single_path (sqrtFn : α → α) (dat : DF α)
    (numerator_val denominator_val sort_val : String) : DF α :=
  let pnum := (dat.map fun x => getCol x numerator_val).sum
  let pden := (dat.map fun x => getCol x denominator_val).sum
  let d1 := dat.map (setWith "p_bar_numer" fun _ => pnum)
  let d2 := d1.map (setWith "p_bar_denom" fun _ => pden)
  let d3 := d2.map (setWith "p_bar" fun r => getCol r "p_bar_numer" / getCol r "p_bar_denom")
  let d4 := d3.map (setWith "p_std" fun r =>
    sqrtFn ((getCol r "p_bar" * (1 - getCol r "p_bar")) / getCol r denominator_val))
  let d5 := sortRowsBy (rowLe [sort_val]) d4
  let d6 := d5.map (setWith "p_zval" fun r =>
    (getCol r "val" - getCol r "p_bar") / getCol r "p_std")
  let zs := d6.map fun r => getCol r "p_zval"
  let mbs := mr_bar zs / (1128 / 1000)
  let d7 := sortRowsBy (rowLe [sort_val]) d6
  pu_tail "p_bar" "p_std" d7 (fun _ => mbs)

/-- The `multi_strats == True` P pipeline (lines 256-263, 293-326,
330-354).  The grouped z-moving-range aggregations of lines 304-319 are
rendered per key exactly as in `i_chart_strat`. -/
def p_strat_path (sqrtFn : α → α) (dat : DF α)
    (numerator_val denominator_val sort_val : String) (strats : List String) : DF α :=
  let d1 := dat.map (setWith "p_bar_numer" fun r =>
    ((dat.filter fun r2 => decide (keyOf strats r2 = keyOf strats r)).map
      fun x => getCol x numerator_val).sum)
  let d2 := d1.map (setWith "p_bar_denom" fun r =>
    ((d1.filter fun r2 => decide (keyOf strats r2 = keyOf strats r)).map
      fun x => getCol x denominator_val).sum)
  let d3 := d2.map (setWith "p_bar" fun r => getCol r "p_bar_numer" / getCol r "p_bar_denom")
  let d4 := d3.map (setWith "p_std" fun r =>
    sqrtFn ((getCol r "p_bar" * (1 - getCol r "p_bar")) / getCol r denominator_val))
  let d5 := sortRowsBy (rowLe (strats ++ [sort_val])) d4
  let d6 := d5.map (setWith "p_zval" fun r =>
    (getCol r "val" - getCol r "p_bar") / getCol r "p_std")
  let keys := (d6.map (keyOf strats)).dedup
  let gz := fun k =>
    (d6.filter fun r => decide (keyOf strats r = k)).map fun r => getCol r "p_zval"
  let d7 := merge d6 (aggTable strats keys "ul_mr0" fun k => ul_mr (gz k)) strats
  let keys2 := keys.filter fun k => decide ((mrRetained (gz k)).length ≠ 0)
  let d8 := merge d7
    (aggTable strats keys2 "mr_bar_std" fun k => mr_bar (gz k) / (1128 / 1000)) strats
  pu_tail "p_bar" "p_std" d8 (fun r => getCol r "mr_bar_std")

/-- `p_chart_limits` (line 173): the P-model operation.  numpy's `** .5`
is the `sqrtFn` parameter (instantiated with `Real.sqrt` for the
real-valued reading). -/
def p_chart_limits (sqrtFn : α → α) (dat : DF α)
    (numerator_val denominator_val sort_val : String)
    (multi_strats : Bool) (strats : List String) : Option (DF α) :=
  let original_columns := (dat.headD []).map Prod.fst
  let d0 := dat.map (setWith "val" fun r =>
    getCol r numerator_val / getCol r denominator_val)
  let outCols := original_columns ++
    ["p_bar", "lcl", "ucl", "sc_weight", "lcl_prime", "ucl_prime", "sc_weight_prime"]
  if multi_strats = false then
    some ((p_single_path sqrtFn d0 numerator_val denominator_val sort_val).map
      (selectCols outCols))
  else if strats.length = 0 then none
  else
    some ((p_strat_path sqrtFn d0 numerator_val denominator_val sort_val strats).map
      (selectCols outCols))

/-- The `multi_strats == False` U pipeline (lines 435-437, 445-475,
518-543), structurally the P one with the Poisson `u_std`. -/
def u_single_path (sqrtFn : α → α) (dat : DF α)
    (numerator_val denominator_val sort_val : String) : DF α :=
  let unum := (dat.map fun x => getCol x numerator_val).sum
  let uden := (dat.map fun x => getCol x denominator_val).sum
  let d1 := dat.map (setWith "u_bar_numer" fun _ => unum)
  let d2 := d1.map (setWith "u_bar_denom" fun _ => uden)
  let d3 := d2.map (setWith "u_bar" fun r => getCol r "u_bar_numer" / getCol r "u_bar_denom")
  let d4 := d3.map (setWith "u_std" fun r =>
    sqrtFn (getCol r "u_bar" / getCol r denominator_val))
  let d5 := sortRowsBy (rowLe [sort_val]) d4
  let d6 := d5.map (setWith "u_zval" fun r =>
    (getCol r "val" - getCol r "u_bar") / getCol r "u_std")
  let zs := d6.map fun r => getCol r "u_zval"
  let mbs := mr_bar zs / (1128 / 1000)
  let d7 := sortRowsBy (rowLe [sort_val]) d6
  pu_tail "u_bar" "u_std" d7 (fun _ => mbs)

/-- The `multi_strats == True` U pipeline (lines 442-445, 477-515,
518-543). -/
def u_strat_path (sqrtFn : α → α) (dat : DF α)
    (numerator_val denominator_val sort_val : String) (strats : List String) : DF α :=
  let d1 := dat.map (setWith "u_bar_numer" fun r =>
    ((dat.filter fun r2 => decide (keyOf strats r2 = keyOf strats r)).map
      fun x => getCol x numerator_val).sum)
  let d2 := d1.map (setWith "u_bar_denom" fun r =>
    ((d1.filter fun r2 => decide (keyOf strats r2 = keyOf strats r)).map
      fun x => getCol x denominator_val).sum)
  let d3 := d2.map (setWith "u_bar" fun r => getCol r "u_bar_numer" / getCol r "u_bar_denom")
  let d4 := d3.map (setWith "u_std" fun r =>
    sqrtFn (getCol r "u_bar" / getCol r denominator_val))
  let d5 := sortRowsBy (rowLe (strats ++ [sort_val])) d4
  let d6 := d5.map (setWith "u_zval" fun r =>
    (getCol r "val" - getCol r "u_bar") / getCol r "u_std")
  let keys := (d6.map (keyOf strats)).dedup
  let gz := fun k =>
    (d6.filter fun r => decide (keyOf strats r = k)).map fun r => getCol r "u_zval"
  let d7 := merge d6 (aggTable strats keys "ul_mr0" fun k => ul_mr (gz k)) strats
  let keys2 := keys.filter fun k => decide ((mrRetained (gz k)).length ≠ 0)
  let d8 := merge d7
    (aggTable strats keys2 "mr_bar_std" fun k => mr_bar (gz k) / (1128 / 1000)) strats
  pu_tail "u_bar" "u_std" d8 (fun r => getCol r "mr_bar_std")

/-- `u_chart_limits` (line 364): the U-model operation.  The `chart_type`
parameter of the source is never read and is omitted here. -/
def u_chart_limits (sqrtFn : α → α) (dat : DF α)
    (numerator_val denominator_val sort_val : String)
    (multi_strats : Bool) (strats : List String) : Option (DF α) :=
  let original_columns := (dat.headD []).map Prod.fst
  let d0 := dat.map (setWith "val" fun r =>
    getCol r numerator_val / getCol r denominator_val)
  let outCols := original_columns ++
    ["u_bar", "lcl", "ucl", "sc_weight", "lcl_prime", "ucl_prime", "sc_weight_prime"]
  if multi_strats = false then
    some ((u_single_path sqrtFn d0 numerator_val denominator_val sort_val).map
      (selectCols outCols))
  else if strats.length = 0 then none
  else
    some ((u_strat_path sqrtFn d0 numerator_val denominator_val sort_val strats).map
      (selectCols outCols))

/-! ### Specification-side predicates -/

/-- Every row of the frame has exactly the schema `cols0` (a pandas frame
has a single column set shared by all rows). -/
def HasCols (dat : DF α) (cols0 : List String) : Prop :=
  ∀ r ∈ dat, rowCols r = cols0

/-- The column names written by `i_chart_limits` (including the
moving-range working column `mr0` of line 89 and the merged aggregate
columns of the stratified path). -/
def reservedI : List String :=
  ["val", "mr0", "ul_mr", "mr_bar", "i_bar", "lcl", "ucl", "sc_weight"]

/-- The column names written by `p_chart_limits` (lines 243-354),
including the scalar working columns of the single-stratum path. -/
def reservedP : List String :=
  ["val", "p_bar_numer", "p_bar_denom", "p_bar", "p_std", "p_zval", "mr_p_zval",
   "mr_bar0_num", "mr_bar0_den", "mr_bar0", "ul_mr0", "mr_bar_num", "mr_bar_den",
   "mr_bar", "mr_bar_std", "lcl", "ucl", "lcl_prime", "ucl_prime",
   "sc_weight", "sc_weight_prime"]

/-- The column names written by `u_chart_limits` (lines 429-543). -/
def reservedU : List String :=
  ["val", "u_bar_numer", "u_bar_denom", "u_bar", "u_std", "u_zval", "mr_u_zval",
   "mr_bar0_num", "mr_bar0_den", "mr_bar0", "ul_mr0", "mr_bar_num", "mr_bar_den",
   "mr_bar", "mr_bar_std", "lcl", "ucl", "lcl_prime", "ucl_prime",
   "sc_weight", "sc_weight_prime"]

/-- The limit/weight column names written by `pu_tail` (lines 330-354). -/
def puTailCols : List String :=
  ["lcl", "ucl", "lcl_prime", "ucl_prime", "sc_weight", "sc_weight_prime"]

/-- The special-cause sign/formula contract of one weight cell `w` for an
observation value `v` against limits `lcl`/`ucl` and the center line:
zero within the limits; the normalized negative distance (strictly
negative when the dispersion is positive) below; the normalized positive
distance (strictly positive when the dispersion is positive) above. -/
def scTrichotomy (v lcl ucl center w : α) : Prop :=
  (lcl ≤ v → v ≤ ucl → w = 0) ∧
  (v < lcl → w = -((lcl - v) / (center - lcl))) ∧
  (v < lcl → lcl < center → w < 0) ∧
  (ucl < v → lcl ≤ ucl → w = (v - ucl) / (ucl - center)) ∧
  (ucl < v → lcl < center → center < ucl → 0 < w)

/-! ### Basic frame lemmas -/

@[simp] theorem getCol_setCol_self (r : Row α) (c : String) (v : α) :
    getCol (setCol r c v) c = v := by
  induction r with
  | nil => simp [setCol, getCol]
  | cons p rest ih =>
    obtain ⟨c0, v0⟩ := p
    by_cases h : c0 = c <;> simp [setCol, getCol, h, ih]

theorem getCol_setCol_ne (r : Row α) {c c' : String} (v : α) (h : c' ≠ c) :
    getCol (setCol r c v) c' = getCol r c' := by
  induction r with
  | nil => simp [setCol, getCol, Ne.symm h]
  | cons p rest ih =>
    obtain ⟨c0, v0⟩ := p
    by_cases h0 : c0 = c
    · subst h0
      simp [setCol, getCol, Ne.symm h]
    · simp only [setCol, if_neg h0, getCol]
      by_cases h1 : c0 = c' <;> simp [h1, ih]

@[simp] theorem rowCols_nil : rowCols ([] : Row α) = [] := rfl

@[simp] theorem rowCols_cons (p : String × α) (r : Row α) :
    rowCols (p :: r) = p.1 :: rowCols r := rfl

@[simp] theorem rowCols_append (l r : Row α) :
    rowCols (l ++ r) = rowCols l ++ rowCols r := by
  simp [rowCols]

theorem rowCols_setCol_of_mem {r : Row α} {c : String} (v : α) (h : c ∈ rowCols r) :
    rowCols (setCol r c v) = rowCols r := by
  induction r with
  | nil => simp at h
  | cons p rest ih =>
    obtain ⟨c0, v0⟩ := p
    by_cases h0 : c0 = c
    · simp [setCol, h0]
    · have h1 : c ∈ rowCols rest := by
        rcases List.mem_cons.mp (by simpa using h) with h1 | h1
        · exact absurd h1.symm h0
        · exact h1
      simp [setCol, if_neg h0, ih h1]

theorem rowCols_setCol_of_not_mem {r : Row α} {c : String} (v : α) (h : c ∉ rowCols r) :
    rowCols (setCol r c v) = rowCols r ++ [c] := by
  induction r with
  | nil => simp [setCol]
  | cons p rest ih =>
    obtain ⟨c0, v0⟩ := p
    simp only [rowCols_cons, List.mem_cons] at h
    push_neg at h
    simp [setCol, if_neg (Ne.symm h.1), ih h.2]

theorem getCol_append_of_mem {l : Row α} (r : Row α) {c : String} (h : c ∈ rowCols l) :
    getCol (l ++ r) c = getCol l c := by
  induction l with
  | nil => simp at h
  | cons p rest ih =>
    obtain ⟨c0, v0⟩ := p
    by_cases h0 : c0 = c
    · simp [getCol, h0]
    · have h1 : c ∈ rowCols rest := by
        rcases List.mem_cons.mp (by simpa using h) with h1 | h1
        · exact absurd h1.symm h0
        · exact h1
      simp [getCol, h0, ih h1]

theorem getCol_append_of_not_mem {l : Row α} (r : Row α) {c : String} (h : c ∉ rowCols l) :
    getCol (l ++ r) c = getCol r c := by
  induction l with
  | nil => simp
  | cons p rest ih =>
    obtain ⟨c0, v0⟩ := p
    simp only [rowCols_cons, List.mem_cons] at h
    push_neg at h
    simp [getCol, if_neg (Ne.symm h.1), ih h.2]

@[simp] theorem rowCols_selectCols (cs : List String) (r : Row α) :
    rowCols (selectCols cs r) = cs := by
  simp [rowCols, selectCols, List.map_map, Function.comp_def]

theorem getCol_selectCols_of_mem {cs : List String} (r : Row α) {c : String} (h : c ∈ cs) :
    getCol (selectCols cs r) c = getCol r c := by
  induction cs with
  | nil => simp at h
  | cons c0 rest ih =>
    by_cases h0 : c0 = c
    · simp [selectCols, getCol, h0]
    · rcases List.mem_cons.mp h with h1 | h1
      · exact absurd h1.symm h0
      · simpa [selectCols, getCol, h0] using ih h1

/-! ### Sort lemmas -/

theorem orderedInsertRow_perm (le : Row α → Row α → Bool) (a : Row α) (l : DF α) :
    (orderedInsertRow le a l).Perm (a :: l) := by
  induction l with
  | nil => simp [orderedInsertRow]
  | cons b rest ih =>
    by_cases h : le a b
    · simp [orderedInsertRow, h]
    · simp only [orderedInsertRow, if_neg h]
      exact (ih.cons b).trans (List.Perm.swap a b rest)

theorem sortRowsBy_perm (le : Row α → Row α → Bool) (l : DF α) :
    (sortRowsBy le l).Perm l := by
  induction l with
  | nil => simp [sortRowsBy]
  | cons a rest ih =>
    exact (orderedInsertRow_perm le a (sortRowsBy le rest)).trans (ih.cons a)

theorem mem_sortRowsBy {le : Row α → Row α → Bool} {l : DF α} {r : Row α} :
    r ∈ sortRowsBy le l ↔ r ∈ l :=
  (sortRowsBy_perm le l).mem_iff

theorem length_sortRowsBy (le : Row α → Row α → Bool) (l : DF α) :
    (sortRowsBy le l).length = l.length :=
  (sortRowsBy_perm le l).length_eq

/-! ### Merge and aggregate lemmas -/

theorem mem_merge {left right : DF α} {onCols : List String} {x : Row α} :
    x ∈ merge left right onCols ↔
      ∃ l ∈ left, ∃ r ∈ right, keyOf onCols r = keyOf onCols l ∧ x = mergeRow onCols l r := by
  simp only [merge, List.mem_flatMap, List.mem_map, List.mem_filter, decide_eq_true_eq]
  constructor
  · rintro ⟨l, hl, r, ⟨hr, hk⟩, hx⟩
    exact ⟨l, hl, r, hr, hk, hx.symm⟩
  · rintro ⟨l, hl, r, hr, hk, hx⟩
    exact ⟨l, hl, r, ⟨hr, hk⟩, hx.symm⟩

theorem getCol_setWith_same (c : String) (f : Row α → α) (r : Row α) :
    getCol (setWith c f r) c = f r :=
  getCol_setCol_self r c (f r)

theorem getCol_setWith_ne (c : String) (f : Row α → α) (r : Row α) {c' : String}
    (h : c' ≠ c) : getCol (setWith c f r) c' = getCol r c' :=
  getCol_setCol_ne r (f r) h

/-- Unconditional form of the `setCol` schema change, for `simp`. -/
theorem rowCols_setCol_ite (r : Row α) (c : String) (v : α) :
    rowCols (setCol r c v) =
      if c ∈ rowCols r then rowCols r else rowCols r ++ [c] := by
  by_cases h : c ∈ rowCols r
  · rw [if_pos h, rowCols_setCol_of_mem v h]
  · rw [if_neg h, rowCols_setCol_of_not_mem v h]

theorem rowCols_setWith (c : String) (f : Row α → α) (r : Row α) :
    rowCols (setWith c f r) =
      if c ∈ rowCols r then rowCols r else rowCols r ++ [c] :=
  rowCols_setCol_ite r c (f r)

/-- Unconditional form of reading an appended row, for `simp`. -/
theorem getCol_append_ite (l r : Row α) (c : String) :
    getCol (l ++ r) c = if c ∈ rowCols l then getCol l c else getCol r c := by
  by_cases h : c ∈ rowCols l
  · rw [if_pos h]
    exact getCol_append_of_mem _ h
  · rw [if_neg h]
    exact getCol_append_of_not_mem _ h

/-- Unconditional form of reading a merged row, for `simp`. -/
theorem getCol_mergeRow_ite (onCols : List String) (l r : Row α) (c : String) :
    getCol (mergeRow onCols l r) c =
      if c ∈ rowCols l then getCol l c
      else getCol (r.filter fun p => decide (p.1 ∉ onCols)) c := by
  by_cases h : c ∈ rowCols l
  · rw [if_pos h]
    exact getCol_append_of_mem _ h
  · rw [if_neg h]
    exact getCol_append_of_not_mem _ h

theorem keyOf_setCol {strats : List String} {c : String} (r : Row α) (v : α)
    (h : c ∉ strats) : keyOf strats (setCol r c v) = keyOf strats r := by
  unfold keyOf
  refine List.map_congr_left fun s hs => ?_
  exact getCol_setCol_ne r v fun he => h (he ▸ hs)

/-- A key-stable per-row transform commutes with a key filter. -/
theorem keyOf_setWith {strats : List String} (c : String) (f : Row α → α) (r : Row α)
    (h : c ∉ strats) : keyOf strats (setWith c f r) = keyOf strats r :=
  keyOf_setCol r (f r) h

theorem filter_key_map {dat : DF α} {strats : List String} {k : List α} {g : Row α → Row α}
    (hg : ∀ r, keyOf strats (g r) = keyOf strats r) :
    (dat.map g).filter (fun r => decide (keyOf strats r = k)) =
      (dat.filter fun r => decide (keyOf strats r = k)).map g := by
  rw [List.filter_map]
  congr 1
  apply List.filter_congr
  intro x hx
  simp [Function.comp, hg]

/-- Special case of `filter_key_map` for a column-assignment stage. -/
theorem filter_key_map_setWith {dat : DF α} {strats : List String} {k : List α}
    {cname : String} {f : Row α → α} (h : cname ∉ strats) :
    (dat.map (setWith cname f)).filter (fun r => decide (keyOf strats r = k)) =
      (dat.filter fun r => decide (keyOf strats r = k)).map (setWith cname f) :=
  filter_key_map fun r => keyOf_setWith cname f r h

theorem keyOf_mergeRow {strats onCols : List String} {l : Row α} (r : Row α)
    (h : ∀ c ∈ strats, c ∈ rowCols l) :
    keyOf strats (mergeRow onCols l r) = keyOf strats l := by
  unfold keyOf mergeRow
  exact List.map_congr_left fun s hs => getCol_append_of_mem _ (h s hs)

theorem getCol_mergeRow_of_mem {l : Row α} (r : Row α) (onCols : List String) {c : String}
    (h : c ∈ rowCols l) : getCol (mergeRow onCols l r) c = getCol l c :=
  getCol_append_of_mem _ h

theorem zip_filter_not_mem_eq_nil (strats : List String) (k : List α) :
    ((strats.zip k).filter fun p => decide (p.1 ∉ strats)) = [] := by
  refine List.filter_eq_nil_iff.mpr fun p hp => ?_
  have h1 : p.1 ∈ strats := (List.of_mem_zip hp).1
  simp [h1]

/-- In a merged-in aggregate row, the added aggregate column reads back its
value (the key columns of the right row are dropped by the merge, and the
left row does not contain the aggregate name). -/
theorem getCol_mergeRow_agg {l : Row α} {strats : List String} {cname : String}
    (k : List α) (v : α) (hl : cname ∉ rowCols l) (hs : cname ∉ strats) :
    getCol (mergeRow strats l (strats.zip k ++ [(cname, v)])) cname = v := by
  unfold mergeRow
  rw [getCol_append_of_not_mem _ hl, List.filter_append, zip_filter_not_mem_eq_nil]
  simp [getCol, hs]

theorem keyOf_aggTable_row {strats : List String} {k : List α} {cname : String} (v : α)
    (hnd : strats.Nodup) (hlen : k.length = strats.length) (hc : cname ∉ strats) :
    keyOf strats (strats.zip k ++ [(cname, v)]) = k := by
  induction strats generalizing k with
  | nil =>
    have hk : k = [] := List.length_eq_zero.mp hlen
    subst hk
    rfl
  | cons s ss ih =>
    obtain ⟨a, as, rfl⟩ := List.exists_cons_of_length_eq_add_one (by simpa using hlen)
    simp only [List.zip_cons_cons, keyOf, List.map_cons, List.cons_append]
    have h1 : getCol ((s, a) :: (ss.zip as ++ [(cname, v)])) s = a := by simp [getCol]
    have hnd1 : s ∉ ss := (List.nodup_cons.mp hnd).1
    have hih := @ih as (List.nodup_cons.mp hnd).2 (by simpa using hlen)
      (fun h => hc (List.mem_cons_of_mem _ h))
    have h2 : List.map (getCol ((s, a) :: (ss.zip as ++ [(cname, v)]))) ss = as := by
      calc List.map (getCol ((s, a) :: (ss.zip as ++ [(cname, v)]))) ss
          = List.map (getCol (ss.zip as ++ [(cname, v)])) ss := by
            refine List.map_congr_left fun c hcm => ?_
            have hne : s ≠ c := fun he => hnd1 (he ▸ hcm)
            simp [getCol, hne]
        _ = as := hih
    rw [h1, h2]

@[simp] theorem keyOf_length (strats : List String) (r : Row α) :
    (keyOf strats r).length = strats.length := by
  simp [keyOf]

theorem filter_aggTable_of_not_mem {strats : List String} {keys : List (List α)}
    {cname : String} {f : List α → α} {k0 : List α}
    (hnd : strats.Nodup) (hlen : ∀ k ∈ keys, k.length = strats.length)
    (hc : cname ∉ strats) (h : k0 ∉ keys) :
    (aggTable strats keys cname f).filter (fun r => decide (keyOf strats r = k0)) = [] := by
  induction keys with
  | nil => rfl
  | cons k ks ih =>
    have hk : keyOf strats (strats.zip k ++ [(cname, f k)]) = k :=
      keyOf_aggTable_row _ hnd (hlen k (by simp)) hc
    have hne : ¬(k = k0) := fun he => h (by simp [he])
    simp only [aggTable, List.map_cons, List.filter_cons, hk]
    rw [if_neg (by simpa using hne)]
    exact ih (fun x hx => hlen x (by simp [hx])) (fun hx => h (by simp [hx]))

theorem filter_aggTable_of_mem {strats : List String} {keys : List (List α)}
    {cname : String} {f : List α → α} {k0 : List α}
    (hnd : strats.Nodup) (hkeys : keys.Nodup)
    (hlen : ∀ k ∈ keys, k.length = strats.length)
    (hc : cname ∉ strats) (h : k0 ∈ keys) :
    (aggTable strats keys cname f).filter (fun r => decide (keyOf strats r = k0)) =
      [strats.zip k0 ++ [(cname, f k0)]] := by
  induction keys with
  | nil => simp at h
  | cons k ks ih =>
    have hk : keyOf strats (strats.zip k ++ [(cname, f k)]) = k :=
      keyOf_aggTable_row _ hnd (hlen k (by simp)) hc
    by_cases he : k = k0
    · subst he
      have hnk : k ∉ ks := (List.nodup_cons.mp hkeys).1
      simp only [aggTable, List.map_cons, List.filter_cons, hk]
      rw [if_pos (by simp)]
      rw [show ((ks.map fun k => strats.zip k ++ [(cname, f k)]).filter
            fun r => decide (keyOf strats r = k)) =
          (aggTable strats ks cname f).filter (fun r => decide (keyOf strats r = k)) from rfl,
        filter_aggTable_of_not_mem hnd (fun x hx => hlen x (by simp [hx])) hc hnk]
    · have h1 : k0 ∈ ks := by
        rcases List.mem_cons.mp h with h2 | h2
        · exact absurd h2.symm he
        · exact h2
      simp only [aggTable, List.map_cons, List.filter_cons, hk]
      rw [if_neg (by simpa using he)]
      exact ih (List.nodup_cons.mp hkeys).2 (fun x hx => hlen x (by simp [hx])) h1

/-- An inner merge against a one-row-per-key aggregate whose keys cover
every left key is row-for-row: each left row is extended by its group's
aggregate row (this is the 1:1 shape of the merges at lines 132, 143,
312, 326, 500, 515 when no group has been emptied). -/
theorem merge_aggTable {left : DF α} {strats : List String} {keys : List (List α)}
    {cname : String} {f : List α → α}
    (hnd : strats.Nodup) (hkeys : keys.Nodup)
    (hlen : ∀ k ∈ keys, k.length = strats.length) (hc : cname ∉ strats)
    (hcover : ∀ l ∈ left, keyOf strats l ∈ keys) :
    merge left (aggTable strats keys cname f) strats =
      left.map fun l =>
        mergeRow strats l (strats.zip (keyOf strats l) ++ [(cname, f (keyOf strats l))]) := by
  induction left with
  | nil => rfl
  | cons l ls ih =>
    have hstep : merge (l :: ls) (aggTable strats keys cname f) strats =
        ((aggTable strats keys cname f).filter
          (fun r => decide (keyOf strats r = keyOf strats l))).map (mergeRow strats l) ++
        merge ls (aggTable strats keys cname f) strats := by
      simp [merge, List.flatMap_cons]
    rw [hstep, filter_aggTable_of_mem hnd hkeys hlen hc (hcover l (by simp)),
      ih fun x hx => hcover x (by simp [hx])]
    rfl

/-! ### Screening lemmas -/

theorem mrList_nonneg {vals : List α} : ∀ x ∈ mrList vals, 0 ≤ x := by
  intro x hx
  simp only [mrList, List.mem_map] at hx
  obtain ⟨p, _, rfl⟩ := hx
  exact abs_nonneg _

theorem mrList_length (vals : List α) : (mrList vals).length = vals.length - 1 := by
  simp [mrList, List.length_zip, List.length_tail]

theorem mrList_sum_nonneg (vals : List α) : 0 ≤ (mrList vals).sum :=
  List.sum_nonneg mrList_nonneg

theorem mr0_bar_nonneg {vals : List α} (h : 2 ≤ vals.length) : 0 ≤ mr0_bar vals := by
  unfold mr0_bar
  have hd : (0 : α) < (vals.length : α) - 1 := by
    have : (2 : α) ≤ (vals.length : α) := by exact_mod_cast h
    linarith
  exact div_nonneg (mrList_sum_nonneg vals) hd.le

theorem length_den_eq {vals : List α} (h : 2 ≤ vals.length) :
    (vals.length : α) - 1 = ((mrList vals).length : α) := by
  rw [mrList_length]
  have h1 : 1 ≤ vals.length := le_trans (by norm_num) h
  push_cast [Nat.cast_sub h1]
  ring

theorem sum_lt_of_forall_lt {l : List α} {c : α} (hne : l ≠ [])
    (h : ∀ x ∈ l, c < x) : c * l.length < l.sum := by
  induction l with
  | nil => exact absurd rfl hne
  | cons a rest ih =>
    rcases rest with _ | ⟨b, rest2⟩
    · simpa using h a (by simp)
    · have h2 := ih (by simp) (fun x hx => h x (List.mem_cons_of_mem _ hx))
      have h3 := h a (by simp)
      simp only [List.sum_cons, List.length_cons] at h2 ⊢
      push_cast at h2 ⊢
      linarith

/-- The screened moving-range list is never empty for a group of at least
two rows: not every (nonnegative) moving range can exceed `3.27` times
their mean. -/
theorem mrRetained_ne_nil {vals : List α} (h : 2 ≤ vals.length) :
    mrRetained vals ≠ [] := by
  intro hnil
  have hlen : 1 ≤ (mrList vals).length := by
    rw [mrList_length]
    omega
  have hlne : mrList vals ≠ [] := by
    intro h0
    rw [h0] at hlen
    simp at hlen
  have hall : ∀ x ∈ mrList vals, ul_mr vals < x := by
    intro x hx
    by_contra hle
    push_neg at hle
    have : x ∈ mrRetained vals := by
      unfold mrRetained
      exact List.mem_filter.mpr ⟨hx, by simpa using hle⟩
    rw [hnil] at this
    simp at this
  have hlt := sum_lt_of_forall_lt hlne hall
  have hden : (0 : α) < ((mrList vals).length : α) := by
    exact_mod_cast hlen
  have hsum : ul_mr vals * (mrList vals).length =
      (327 / 100) * (mrList vals).sum := by
    unfold ul_mr mr0_bar
    rw [length_den_eq h]
    field_simp
    ring
  rw [hsum] at hlt
  have hs0 : 0 ≤ (mrList vals).sum := mrList_sum_nonneg vals
  nlinarith

/-- C4's core inequality: the screened dispersion estimate never exceeds
the unscreened one (screening only removes moving ranges strictly above
`3.27` times the mean, each of which exceeds the mean itself). -/
theorem mr_bar_le_mr0_bar {vals : List α} (h : 2 ≤ vals.length) :
    mr_bar vals ≤ mr0_bar vals := by
  set l := mrList vals with hl
  set m := mr0_bar vals with hm
  have hlen : 1 ≤ l.length := by
    rw [hl, mrList_length]
    omega
  have hden : (0 : α) < (l.length : α) := by exact_mod_cast hlen
  have hperm := List.filter_append_perm (fun x => decide (x ≤ ul_mr vals)) l
  set R := l.filter (fun x => decide (x ≤ ul_mr vals)) with hR
  set T := l.filter (fun x => !decide (x ≤ ul_mr vals)) with hT
  have hsum : R.sum + T.sum = l.sum := by
    rw [← List.sum_append]
    exact hperm.sum_eq
  have hcount : R.length + T.length = l.length := by
    rw [← List.length_append]
    exact hperm.length_eq
  have hm_eq : m * l.length = l.sum := by
    rw [hm]
    unfold mr0_bar
    rw [← hl, length_den_eq h]
    field_simp
  have hm0 : 0 ≤ m := mr0_bar_nonneg h
  have hRsum : R.sum ≤ m * R.length := by
    rcases hTnil : T with _ | ⟨t0, T2⟩
    · have hR_eq : R.sum = l.sum := by
        rw [← hsum, hTnil]
        simp
      have hRlen : (R.length : α) = l.length := by
        have hc1 := hcount
        rw [hTnil] at hc1
        simp only [List.length_nil, Nat.add_zero] at hc1
        exact_mod_cast hc1
      rw [hR_eq, hRlen, hm_eq]
    · have hTne : T ≠ [] := by
        rw [hTnil]
        simp
      have hTall : ∀ x ∈ T, m < x := by
        intro x hx
        have hx2 : x ∈ l.filter (fun x => !decide (x ≤ ul_mr vals)) := hT ▸ hx
        have hgt : ul_mr vals < x := by
          have := (List.mem_filter.mp hx2).2
          simpa using this
        have hulm : m ≤ ul_mr vals := by
          unfold ul_mr
          rw [← hm]
          nlinarith
        exact lt_of_le_of_lt hulm hgt
      have hTlt : m * T.length < T.sum := sum_lt_of_forall_lt hTne hTall
      have hR_eq : R.sum = l.sum - T.sum := by linarith
      rw [hR_eq, ← hm_eq]
      have hc2 : (R.length : α) + T.length = l.length := by
        exact_mod_cast hcount
      nlinarith
  unfold mr_bar
  rw [show mrRetained vals = R from rfl]
  rcases Nat.eq_zero_or_pos R.length with hR0 | hRpos
  · rw [hR0]
    simp [hm0]
  · have hRden : (0 : α) < (R.length : α) := by exact_mod_cast hRpos
    rw [div_le_iff₀ hRden]
    exact hRsum

/-! ### Scorer lemmas -/

theorem scWeight_within {val lcl ucl center : α} (h1 : lcl ≤ val) (h2 : val ≤ ucl) :
    scWeight val lcl ucl center = 0 := by
  unfold scWeight
  rw [if_neg (not_lt.mpr h1), if_neg (not_lt.mpr h2)]

theorem scWeight_below {val lcl ucl center : α} (h : val < lcl) :
    scWeight val lcl ucl center = -((lcl - val) / (center - lcl)) := by
  unfold scWeight
  rw [if_pos h]
  ring

theorem scWeight_below_neg {val lcl ucl center : α} (h : val < lcl) (hd : lcl < center) :
    scWeight val lcl ucl center < 0 := by
  rw [scWeight_below h]
  have h1 : 0 < lcl - val := by linarith
  have h2 : 0 < center - lcl := by linarith
  have := div_pos h1 h2
  linarith

theorem scWeight_above {val lcl ucl center : α} (h : ucl < val) (hle : lcl ≤ ucl) :
    scWeight val lcl ucl center = (val - ucl) / (ucl - center) := by
  unfold scWeight
  rw [if_neg (not_lt.mpr (le_trans hle h.le)), if_pos h]

theorem scWeight_above_pos {val lcl ucl center : α} (h : ucl < val)
    (h1 : lcl < center) (h2 : center < ucl) : 0 < scWeight val lcl ucl center := by
  rw [scWeight_above h (by linarith)]
  exact div_pos (by linarith) (by linarith)

/-- The scorer satisfies the full sign/formula contract. -/
theorem scWeight_trichotomy (val lcl ucl center : α) :
    scTrichotomy val lcl ucl center (scWeight val lcl ucl center) :=
  ⟨fun h1 h2 => scWeight_within h1 h2,
   fun h => scWeight_below h,
   fun h hd => scWeight_below_neg h hd,
   fun h hle => scWeight_above h hle,
   fun h h1 h2 => scWeight_above_pos h h1 h2⟩

/-! ### `pu_tail` evaluation -/

/-- Reading the columns of a `pu_tail` output row in terms of the input
row `R`: the bar/std/val columns are untouched, the four limits follow
the lines 330-333 formulas, and the two weights are the scorer applied to
them. -/
theorem pu_tail_row_facts (barName stdName : String) (dat : DF α) (getMBS : Row α → α)
    (hbar : barName ∉ puTailCols) (hstd : stdName ∉ puTailCols)
    {T : Row α} (hT : T ∈ pu_tail barName stdName dat getMBS)
    (hmbs : ∀ x c f, c ∈ puTailCols → getMBS (setWith c f x) = getMBS x) :
    ∃ R ∈ dat,
      getCol T barName = getCol R barName ∧
      getCol T stdName = getCol R stdName ∧
      (∀ c, c ∉ puTailCols → getCol T c = getCol R c) ∧
      getCol T "lcl" = getCol R barName - 3 * getCol R stdName ∧
      getCol T "ucl" = getCol R barName + 3 * getCol R stdName ∧
      getCol T "lcl_prime" = getCol R barName - 3 * getCol R stdName * getMBS R ∧
      getCol T "ucl_prime" = getCol R barName + 3 * getCol R stdName * getMBS R ∧
      getCol T "sc_weight" =
        scWeight (getCol R "val") (getCol R barName - 3 * getCol R stdName)
          (getCol R barName + 3 * getCol R stdName) (getCol R barName) ∧
      getCol T "sc_weight_prime" =
        scWeight (getCol R "val") (getCol R barName - 3 * getCol R stdName * getMBS R)
          (getCol R barName + 3 * getCol R stdName * getMBS R) (getCol R barName) := by
  simp only [pu_tail] at hT
  obtain ⟨t5, ht5, rfl⟩ := List.mem_map.mp hT
  obtain ⟨t4, ht4, rfl⟩ := List.mem_map.mp ht5
  obtain ⟨t3, ht3, rfl⟩ := List.mem_map.mp ht4
  obtain ⟨t2, ht2, rfl⟩ := List.mem_map.mp ht3
  obtain ⟨t1, ht1, rfl⟩ := List.mem_map.mp ht2
  obtain ⟨R, hR, rfl⟩ := List.mem_map.mp ht1
  have hb : ∀ s ∈ puTailCols, ¬(barName = s) := fun s hs he => hbar (he ▸ hs)
  have hs : ∀ s ∈ puTailCols, ¬(stdName = s) := fun s hs he => hstd (he ▸ hs)
  have hb1 := hb "lcl" (by decide)
  have hb2 := hb "ucl" (by decide)
  have hb3 := hb "lcl_prime" (by decide)
  have hb4 := hb "ucl_prime" (by decide)
  have hb5 := hb "sc_weight" (by decide)
  have hb6 := hb "sc_weight_prime" (by decide)
  have hs1 := hs "lcl" (by decide)
  have hs2 := hs "ucl" (by decide)
  have hs3 := hs "lcl_prime" (by decide)
  have hs4 := hs "ucl_prime" (by decide)
  have hs5 := hs "sc_weight" (by decide)
  have hs6 := hs "sc_weight_prime" (by decide)
  refine ⟨R, hR, ?_, ?_, ?_, ?_, ?_, ?_, ?_, ?_, ?_⟩
  · simp only [getCol_setWith_ne, getCol_setWith_same, ne_eq, String.reduceEq,
      not_false_iff, hb1, hb2, hb3, hb4, hb5, hb6]
  · simp only [getCol_setWith_ne, getCol_setWith_same, ne_eq, String.reduceEq,
      not_false_iff, hs1, hs2, hs3, hs4, hs5, hs6]
  · intro c hc
    have hcf : ∀ s ∈ puTailCols, ¬(c = s) := fun s hsm he => hc (he ▸ hsm)
    simp only [getCol_setWith_ne, ne_eq, hcf "lcl" (by decide), hcf "ucl" (by decide),
      hcf "lcl_prime" (by decide), hcf "ucl_prime" (by decide),
      hcf "sc_weight" (by decide), hcf "sc_weight_prime" (by decide), not_false_iff]
  all_goals
    simp [getCol_setWith_ne, getCol_setWith_same, ne_eq, String.reduceEq,
      not_false_iff, hb1, hb2, hb3, hb4, hb5, hb6, hs1, hs2, hs3, hs4, hs5, hs6,
      hmbs, puTailCols]

/-! ### Row origin of the P single-stratum path -/

/-- Every output row of the `multi_strats == False` P pipeline stems from
one input row `q`: all non-working columns pass through, `p_bar` is the
pooled ratio of whole-column sums, `p_std` applies `sqrtFn` to the
binomial variance with the row's own denominator, the limits follow the
lines 330-333 formulas and the weights are the scorer on the row's own
cells. -/
theorem p_single_origin {sqrtFn : α → α} {dat : DF α} {num den sortv : String}
    (hden : den ∉ reservedP) {T : Row α}
    (hT : T ∈ p_single_path sqrtFn dat num den sortv) :
    ∃ q ∈ dat,
      (∀ c, c ∉ reservedP → getCol T c = getCol q c) ∧
      getCol T "val" = getCol q "val" ∧
      getCol T "p_bar" =
        (dat.map fun x => getCol x num).sum / (dat.map fun x => getCol x den).sum ∧
      getCol T "p_std" =
        sqrtFn (getCol T "p_bar" * (1 - getCol T "p_bar") / getCol q den) ∧
      getCol T "lcl" = getCol T "p_bar" - 3 * getCol T "p_std" ∧
      getCol T "ucl" = getCol T "p_bar" + 3 * getCol T "p_std" ∧
      getCol T "sc_weight" =
        scWeight (getCol q "val") (getCol T "lcl") (getCol T "ucl") (getCol T "p_bar") ∧
      getCol T "sc_weight_prime" =
        scWeight (getCol q "val") (getCol T "lcl_prime") (getCol T "ucl_prime")
          (getCol T "p_bar") := by
  simp only [p_single_path] at hT
  obtain ⟨R, hR, hbar, hstd, hpass, hlcl, hucl, hlclp, huclp, hsw, hswp⟩ :=
    pu_tail_row_facts "p_bar" "p_std" _ _ (by decide) (by decide) hT
      (fun x c f hc => rfl)
  rw [mem_sortRowsBy] at hR
  obtain ⟨S, hS, rfl⟩ := List.mem_map.mp hR
  rw [mem_sortRowsBy] at hS
  obtain ⟨Q3, hQ3, rfl⟩ := List.mem_map.mp hS
  obtain ⟨Q2, hQ2, rfl⟩ := List.mem_map.mp hQ3
  obtain ⟨Q1, hQ1, rfl⟩ := List.mem_map.mp hQ2
  obtain ⟨q, hq, rfl⟩ := List.mem_map.mp hQ1
  refine ⟨q, hq, ?_⟩
  have hden1 : ¬(den = "p_bar_numer") := fun h => hden (by rw [h]; simp [reservedP])
  have hden2 : ¬(den = "p_bar_denom") := fun h => hden (by rw [h]; simp [reservedP])
  have hden3 : ¬(den = "p_bar") := fun h => hden (by rw [h]; simp [reservedP])
  have hTbar : getCol T "p_bar" =
      (dat.map fun x => getCol x num).sum / (dat.map fun x => getCol x den).sum := by
    rw [hbar]
    simp only [getCol_setWith_ne, getCol_setWith_same, ne_eq, String.reduceEq,
      not_false_iff]
  have hTstd : getCol T "p_std" =
      sqrtFn (getCol T "p_bar" * (1 - getCol T "p_bar") / getCol q den) := by
    rw [hstd, hTbar]
    simp only [getCol_setWith_ne, getCol_setWith_same, ne_eq, String.reduceEq,
      not_false_iff, hden1, hden2, hden3]
  refine ⟨?_, ?_, hTbar, hTstd, ?_, ?_, ?_, ?_⟩
  · intro c hc
    have hcp : c ∉ puTailCols := fun h => hc (by
      simp only [puTailCols, List.mem_cons, List.not_mem_nil, or_false] at h
      rcases h with h | h | h | h | h | h <;> rw [h] <;> simp [reservedP])
    have hc1 : ¬(c = "p_zval") := fun h => hc (by rw [h]; simp [reservedP])
    have hc2 : ¬(c = "p_std") := fun h => hc (by rw [h]; simp [reservedP])
    have hc3 : ¬(c = "p_bar") := fun h => hc (by rw [h]; simp [reservedP])
    have hc4 : ¬(c = "p_bar_denom") := fun h => hc (by rw [h]; simp [reservedP])
    have hc5 : ¬(c = "p_bar_numer") := fun h => hc (by rw [h]; simp [reservedP])
    rw [hpass c hcp]
    simp only [getCol_setWith_ne, ne_eq, not_false_iff, hc1, hc2, hc3, hc4, hc5]
  · rw [hpass "val" (by decide)]
    simp only [getCol_setWith_ne, ne_eq, String.reduceEq, not_false_iff]
  · rw [hlcl, ← hbar, ← hstd]
  · rw [hucl, ← hbar, ← hstd]
  · rw [hsw, ← hlcl, ← hucl, ← hbar]
    simp only [getCol_setWith_ne, ne_eq, String.reduceEq, not_false_iff]
  · rw [hswp, ← hlclp, ← huclp, ← hbar]
    simp only [getCol_setWith_ne, ne_eq, String.reduceEq, not_false_iff]

/-! ### Row origin of the P stratified path -/

/-- Every output row of the `multi_strats == True` P pipeline stems from
one input row `q` of its own stratum: the original columns pass through
the merges, `p_bar` is the pooled ratio of the stratum's sums
(`transform('sum')`, lines 256-257), `p_std` is the binomial `sqrtFn`
form with the row's own denominator, and limits/weights are as in the
shared tail. -/
theorem p_strat_origin {sqrtFn : α → α} {dat : DF α} {cols0 : List String}
    {num den sortv : String} {strats : List String}
    (hwf : HasCols dat cols0) (hval : "val" ∈ cols0)
    (hw1 : "p_bar_numer" ∉ cols0) (hw2 : "p_bar_denom" ∉ cols0) (hw3 : "p_bar" ∉ cols0)
    (hw4 : "p_std" ∉ cols0) (hw5 : "p_zval" ∉ cols0)
    (hden : den ∉ reservedP) (hsr : ∀ c ∈ strats, c ∉ reservedP)
    (hsc : ∀ c ∈ strats, c ∈ cols0)
    {T : Row α} (hT : T ∈ p_strat_path sqrtFn dat num den sortv strats) :
    ∃ q ∈ dat,
      (∀ c ∈ cols0, c ∉ reservedP → getCol T c = getCol q c) ∧
      getCol T "val" = getCol q "val" ∧
      getCol T "p_bar" =
        ((dat.filter fun r2 => decide (keyOf strats r2 = keyOf strats q)).map
            fun x => getCol x num).sum /
        ((dat.filter fun r2 => decide (keyOf strats r2 = keyOf strats q)).map
            fun x => getCol x den).sum ∧
      getCol T "p_std" =
        sqrtFn (getCol T "p_bar" * (1 - getCol T "p_bar") / getCol q den) ∧
      getCol T "lcl" = getCol T "p_bar" - 3 * getCol T "p_std" ∧
      getCol T "ucl" = getCol T "p_bar" + 3 * getCol T "p_std" ∧
      keyOf strats T = keyOf strats q ∧
      getCol T "sc_weight" =
        scWeight (getCol q "val") (getCol T "lcl") (getCol T "ucl") (getCol T "p_bar") ∧
      getCol T "sc_weight_prime" =
        scWeight (getCol q "val") (getCol T "lcl_prime") (getCol T "ucl_prime")
          (getCol T "p_bar") := by
  simp only [p_strat_path] at hT
  obtain ⟨R, hR, hbar, hstd, hpass, hlcl, hucl, hlclp, huclp, hsw, hswp⟩ :=
    pu_tail_row_facts "p_bar" "p_std" _ _ (by decide) (by decide) hT
      (fun x c f hc => getCol_setWith_ne _ _ _ (by
        simp only [puTailCols, List.mem_cons, List.not_mem_nil, or_false] at hc
        rcases hc with rfl | rfl | rfl | rfl | rfl | rfl <;> decide))
  obtain ⟨L7, hL7, A2, hA2mem, hk2eq, rfl⟩ := mem_merge.mp hR
  obtain ⟨L6, hL6, A1, hA1mem, hk1eq, rfl⟩ := mem_merge.mp hL7
  obtain ⟨S, hS, rfl⟩ := List.mem_map.mp hL6
  rw [mem_sortRowsBy] at hS
  obtain ⟨Q3, hQ3, rfl⟩ := List.mem_map.mp hS
  obtain ⟨Q2, hQ2, rfl⟩ := List.mem_map.mp hQ3
  obtain ⟨Q1, hQ1, rfl⟩ := List.mem_map.mp hQ2
  obtain ⟨q, hq, rfl⟩ := List.mem_map.mp hQ1
  have hcq : rowCols q = cols0 := hwf q hq
  have hsn1 : ¬("p_bar_numer" ∈ strats) := fun hmem => hsr _ hmem (by simp [reservedP])
  have hden1 : ¬(den = "p_bar_numer") := fun h => hden (by rw [h]; simp [reservedP])
  have hden2 : ¬(den = "p_bar_denom") := fun h => hden (by rw [h]; simp [reservedP])
  have hden3 : ¬(den = "p_bar") := fun h => hden (by rw [h]; simp [reservedP])
  have hpassT : ∀ c ∈ cols0, c ∉ reservedP → getCol T c = getCol q c := by
    intro c hc hcr
    have hcp : c ∉ puTailCols := fun h => hcr (by
      simp only [puTailCols, List.mem_cons, List.not_mem_nil, or_false] at h
      rcases h with h | h | h | h | h | h <;> rw [h] <;> simp [reservedP])
    have hc1 : ¬(c = "p_zval") := fun h => hcr (by rw [h]; simp [reservedP])
    have hc2 : ¬(c = "p_std") := fun h => hcr (by rw [h]; simp [reservedP])
    have hc3 : ¬(c = "p_bar") := fun h => hcr (by rw [h]; simp [reservedP])
    have hc4 : ¬(c = "p_bar_denom") := fun h => hcr (by rw [h]; simp [reservedP])
    have hc5 : ¬(c = "p_bar_numer") := fun h => hcr (by rw [h]; simp [reservedP])
    rw [hpass c hcp]
    simp only [getCol_append_ite, mergeRow, rowCols_append, rowCols_setWith, hcq,
      List.mem_append, List.mem_cons, List.not_mem_nil, String.reduceEq,
      hw1, hw2, hw3, hw4, hw5, hc, ne_eq, not_false_iff,
      or_false, false_or, or_true, true_or, if_true, if_false, getCol_setWith_ne,
      hc1, hc2, hc3, hc4, hc5]
  have hTval : getCol T "val" = getCol q "val" := by
    rw [hpass "val" (by decide)]
    simp only [getCol_append_ite, mergeRow, rowCols_append, rowCols_setWith, hcq,
      List.mem_append, List.mem_cons, List.not_mem_nil, String.reduceEq,
      hw1, hw2, hw3, hw4, hw5, hval, ne_eq, not_false_iff,
      or_false, false_or, or_true, true_or, if_true, if_false, getCol_setWith_ne]
  have hTbar : getCol T "p_bar" =
      ((dat.filter fun r2 => decide (keyOf strats r2 = keyOf strats q)).map
          fun x => getCol x num).sum /
      ((dat.filter fun r2 => decide (keyOf strats r2 = keyOf strats q)).map
          fun x => getCol x den).sum := by
    rw [hbar]
    simp only [getCol_append_ite, mergeRow, rowCols_append, rowCols_setWith, hcq,
      List.mem_append, List.mem_cons, List.not_mem_nil, String.reduceEq,
      hw1, hw2, hw3, hw4, hw5, ne_eq, not_false_iff,
      or_false, false_or, or_true, true_or, if_true, if_false,
      getCol_setWith_ne, getCol_setWith_same, keyOf_setWith, hsn1,
      filter_key_map_setWith, List.map_map, Function.comp_def, hden1]
  have hTstd : getCol T "p_std" =
      sqrtFn (getCol T "p_bar" * (1 - getCol T "p_bar") / getCol q den) := by
    rw [hstd, hTbar]
    simp only [getCol_append_ite, mergeRow, rowCols_append, rowCols_setWith, hcq,
      List.mem_append, List.mem_cons, List.not_mem_nil, String.reduceEq,
      hw1, hw2, hw3, hw4, hw5, ne_eq, not_false_iff,
      or_false, false_or, or_true, true_or, if_true, if_false,
      getCol_setWith_ne, getCol_setWith_same, keyOf_setWith, hsn1,
      filter_key_map_setWith, List.map_map, Function.comp_def, hden1, hden2, hden3]
  refine ⟨q, hq, hpassT, hTval, hTbar, hTstd, ?_, ?_, ?_, ?_, ?_⟩
  · rw [hlcl, ← hbar, ← hstd]
  · rw [hucl, ← hbar, ← hstd]
  · unfold keyOf
    exact List.map_congr_left fun c hcm => hpassT c (hsc c hcm) (hsr c hcm)
  · rw [hsw, ← hlcl, ← hucl, ← hbar]
    simp only [getCol_append_ite, mergeRow, rowCols_append, rowCols_setWith, hcq,
      List.mem_append, List.mem_cons, List.not_mem_nil, String.reduceEq,
      hw1, hw2, hw3, hw4, hw5, hval, ne_eq, not_false_iff,
      or_false, false_or, or_true, true_or, if_true, if_false, getCol_setWith_ne]
  · rw [hswp, ← hlclp, ← huclp, ← hbar]
    simp only [getCol_append_ite, mergeRow, rowCols_append, rowCols_setWith, hcq,
      List.mem_append, List.mem_cons, List.not_mem_nil, String.reduceEq,
      hw1, hw2, hw3, hw4, hw5, hval, ne_eq, not_false_iff,
      or_false, false_or, or_true, true_or, if_true, if_false, getCol_setWith_ne]

/-! ### Row origin of the U paths -/

/-- Every output row of the `multi_strats == False` U pipeline stems from
one input row `q`: non-working columns pass through and the weights are
the scorer applied to the row's own cells. -/
theorem u_single_origin {sqrtFn : α → α} {dat : DF α} {num den sortv : String}
    {T : Row α} (hT : T ∈ u_single_path sqrtFn dat num den sortv) :
    ∃ q ∈ dat,
      (∀ c, c ∉ reservedU → getCol T c = getCol q c) ∧
      getCol T "val" = getCol q "val" ∧
      getCol T "sc_weight" =
        scWeight (getCol q "val") (getCol T "lcl") (getCol T "ucl") (getCol T "u_bar") ∧
      getCol T "sc_weight_prime" =
        scWeight (getCol q "val") (getCol T "lcl_prime") (getCol T "ucl_prime")
          (getCol T "u_bar") := by
  simp only [u_single_path] at hT
  obtain ⟨R, hR, hbar, hstd, hpass, hlcl, hucl, hlclp, huclp, hsw, hswp⟩ :=
    pu_tail_row_facts "u_bar" "u_std" _ _ (by decide) (by decide) hT
      (fun x c f hc => rfl)
  rw [mem_sortRowsBy] at hR
  obtain ⟨S, hS, rfl⟩ := List.mem_map.mp hR
  rw [mem_sortRowsBy] at hS
  obtain ⟨Q3, hQ3, rfl⟩ := List.mem_map.mp hS
  obtain ⟨Q2, hQ2, rfl⟩ := List.mem_map.mp hQ3
  obtain ⟨Q1, hQ1, rfl⟩ := List.mem_map.mp hQ2
  obtain ⟨q, hq, rfl⟩ := List.mem_map.mp hQ1
  refine ⟨q, hq, ?_, ?_, ?_, ?_⟩
  · intro c hc
    have hcp : c ∉ puTailCols := fun h => hc (by
      simp only [puTailCols, List.mem_cons, List.not_mem_nil, or_false] at h
      rcases h with h | h | h | h | h | h <;> rw [h] <;> simp [reservedU])
    have hc1 : ¬(c = "u_zval") := fun h => hc (by rw [h]; simp [reservedU])
    have hc2 : ¬(c = "u_std") := fun h => hc (by rw [h]; simp [reservedU])
    have hc3 : ¬(c = "u_bar") := fun h => hc (by rw [h]; simp [reservedU])
    have hc4 : ¬(c = "u_bar_denom") := fun h => hc (by rw [h]; simp [reservedU])
    have hc5 : ¬(c = "u_bar_numer") := fun h => hc (by rw [h]; simp [reservedU])
    rw [hpass c hcp]
    simp only [getCol_setWith_ne, ne_eq, not_false_iff, hc1, hc2, hc3, hc4, hc5]
  · rw [hpass "val" (by decide)]
    simp only [getCol_setWith_ne, ne_eq, String.reduceEq, not_false_iff]
  · rw [hsw, ← hlcl, ← hucl, ← hbar]
    simp only [getCol_setWith_ne, ne_eq, String.reduceEq, not_false_iff]
  · rw [hswp, ← hlclp, ← huclp, ← hbar]
    simp only [getCol_setWith_ne, ne_eq, String.reduceEq, not_false_iff]

/-- Every output row of the `multi_strats == True` U pipeline stems from
one input row `q`: non-working columns pass through the merges and the
weights are the scorer applied to the row's own cells. -/
theorem u_strat_origin {sqrtFn : α → α} {dat : DF α} {cols0 : List String}
    {num den sortv : String} {strats : List String}
    (hwf : HasCols dat cols0) (hval : "val" ∈ cols0)
    (hw1 : "u_bar_numer" ∉ cols0) (hw2 : "u_bar_denom" ∉ cols0) (hw3 : "u_bar" ∉ cols0)
    (hw4 : "u_std" ∉ cols0) (hw5 : "u_zval" ∉ cols0)
    {T : Row α} (hT : T ∈ u_strat_path sqrtFn dat num den sortv strats) :
    ∃ q ∈ dat,
      (∀ c ∈ cols0, c ∉ reservedU → getCol T c = getCol q c) ∧
      getCol T "val" = getCol q "val" ∧
      getCol T "sc_weight" =
        scWeight (getCol q "val") (getCol T "lcl") (getCol T "ucl") (getCol T "u_bar") ∧
      getCol T "sc_weight_prime" =
        scWeight (getCol q "val") (getCol T "lcl_prime") (getCol T "ucl_prime")
          (getCol T "u_bar") := by
  simp only [u_strat_path] at hT
  obtain ⟨R, hR, hbar, hstd, hpass, hlcl, hucl, hlclp, huclp, hsw, hswp⟩ :=
    pu_tail_row_facts "u_bar" "u_std" _ _ (by decide) (by decide) hT
      (fun x c f hc => getCol_setWith_ne _ _ _ (by
        simp only [puTailCols, List.mem_cons, List.not_mem_nil, or_false] at hc
        rcases hc with rfl | rfl | rfl | rfl | rfl | rfl <;> decide))
  obtain ⟨L7, hL7, A2, hA2mem, hk2eq, rfl⟩ := mem_merge.mp hR
  obtain ⟨L6, hL6, A1, hA1mem, hk1eq, rfl⟩ := mem_merge.mp hL7
  obtain ⟨S, hS, rfl⟩ := List.mem_map.mp hL6
  rw [mem_sortRowsBy] at hS
  obtain ⟨Q3, hQ3, rfl⟩ := List.mem_map.mp hS
  obtain ⟨Q2, hQ2, rfl⟩ := List.mem_map.mp hQ3
  obtain ⟨Q1, hQ1, rfl⟩ := List.mem_map.mp hQ2
  obtain ⟨q, hq, rfl⟩ := List.mem_map.mp hQ1
  have hcq : rowCols q = cols0 := hwf q hq
  have hTval : getCol T "val" = getCol q "val" := by
    rw [hpass "val" (by decide)]
    simp only [getCol_append_ite, mergeRow, rowCols_append, rowCols_setWith, hcq,
      List.mem_append, List.mem_cons, List.not_mem_nil, String.reduceEq,
      hw1, hw2, hw3, hw4, hw5, hval, ne_eq, not_false_iff,
      or_false, false_or, or_true, true_or, if_true, if_false, getCol_setWith_ne]
  refine ⟨q, hq, ?_, hTval, ?_, ?_⟩
  · intro c hc hcr
    have hcp : c ∉ puTailCols := fun h => hcr (by
      simp only [puTailCols, List.mem_cons, List.not_mem_nil, or_false] at h
      rcases h with h | h | h | h | h | h <;> rw [h] <;> simp [reservedU])
    have hc1 : ¬(c = "u_zval") := fun h => hcr (by rw [h]; simp [reservedU])
    have hc2 : ¬(c = "u_std") := fun h => hcr (by rw [h]; simp [reservedU])
    have hc3 : ¬(c = "u_bar") := fun h => hcr (by rw [h]; simp [reservedU])
    have hc4 : ¬(c = "u_bar_denom") := fun h => hcr (by rw [h]; simp [reservedU])
    have hc5 : ¬(c = "u_bar_numer") := fun h => hcr (by rw [h]; simp [reservedU])
    rw [hpass c hcp]
    simp only [getCol_append_ite, mergeRow, rowCols_append, rowCols_setWith, hcq,
      List.mem_append, List.mem_cons, List.not_mem_nil, String.reduceEq,
      hw1, hw2, hw3, hw4, hw5, hc, ne_eq, not_false_iff,
      or_false, false_or, or_true, true_or, if_true, if_false, getCol_setWith_ne,
      hc1, hc2, hc3, hc4, hc5]
  · rw [hsw, ← hlcl, ← hucl, ← hbar]
    simp only [getCol_append_ite, mergeRow, rowCols_append, rowCols_setWith, hcq,
      List.mem_append, List.mem_cons, List.not_mem_nil, String.reduceEq,
      hw1, hw2, hw3, hw4, hw5, hval, ne_eq, not_false_iff,
      or_false, false_or, or_true, true_or, if_true, if_false, getCol_setWith_ne]
  · rw [hswp, ← hlclp, ← huclp, ← hbar]
    simp only [getCol_append_ite, mergeRow, rowCols_append, rowCols_setWith, hcq,
      List.mem_append, List.mem_cons, List.not_mem_nil, String.reduceEq,
      hw1, hw2, hw3, hw4, hw5, hval, ne_eq, not_false_iff,
      or_false, false_or, or_true, true_or, if_true, if_false, getCol_setWith_ne]

/-! ### Row origin of the I paths -/

/-- Every output row of the `multi_strats == False` I pipeline stems from
one input row `q`: non-working columns pass through and `sc_weight` is
the scorer applied to the row's own cells. -/
theorem i_single_origin {dat : DF α} {focal sortv : String}
    {T : Row α} (hT : T ∈ i_chart_single dat focal sortv) :
    ∃ q ∈ dat,
      (∀ c, c ∉ reservedI → getCol T c = getCol q c) ∧
      getCol T "val" = getCol q "val" ∧
      getCol T "sc_weight" =
        scWeight (getCol q "val") (getCol T "lcl") (getCol T "ucl") (getCol T "i_bar") := by
  simp only [i_chart_single] at hT
  obtain ⟨t3, ht3, rfl⟩ := List.mem_map.mp hT
  obtain ⟨t2, ht2, rfl⟩ := List.mem_map.mp ht3
  obtain ⟨t1, ht1, rfl⟩ := List.mem_map.mp ht2
  obtain ⟨q, hq, rfl⟩ := List.mem_map.mp ht1
  rw [mem_sortRowsBy] at hq
  refine ⟨q, hq, ?_, ?_, ?_⟩
  · intro c hc
    have hc1 : ¬(c = "i_bar") := fun h => hc (by rw [h]; simp [reservedI])
    have hc2 : ¬(c = "lcl") := fun h => hc (by rw [h]; simp [reservedI])
    have hc3 : ¬(c = "ucl") := fun h => hc (by rw [h]; simp [reservedI])
    have hc4 : ¬(c = "sc_weight") := fun h => hc (by rw [h]; simp [reservedI])
    simp only [getCol_setWith_ne, ne_eq, not_false_iff, hc1, hc2, hc3, hc4]
  · simp only [getCol_setWith_ne, ne_eq, String.reduceEq, not_false_iff]
  · simp only [getCol_setWith_ne, getCol_setWith_same, ne_eq, String.reduceEq,
      not_false_iff]

/-- Every output row of the `multi_strats == True` I pipeline stems from
one input row `q`: the original columns pass through the merges and
`sc_weight` is the scorer applied to the row's own cells. -/
theorem i_strat_origin {dat : DF α} {cols0 : List String} {focal sortv : String}
    {strats : List String}
    (hwf : HasCols dat cols0) (hval : "val" ∈ cols0)
    (hw1 : "i_bar" ∉ cols0) (hw2 : "lcl" ∉ cols0) (hw3 : "ucl" ∉ cols0)
    (hw4 : "sc_weight" ∉ cols0)
    {T : Row α} (hT : T ∈ i_chart_strat dat focal sortv strats) :
    ∃ q ∈ dat,
      (∀ c ∈ cols0, c ∉ reservedI → getCol T c = getCol q c) ∧
      getCol T "val" = getCol q "val" ∧
      getCol T "sc_weight" =
        scWeight (getCol q "val") (getCol T "lcl") (getCol T "ucl") (getCol T "i_bar") := by
  simp only [i_chart_strat] at hT
  obtain ⟨t3, ht3, rfl⟩ := List.mem_map.mp hT
  obtain ⟨t2, ht2, rfl⟩ := List.mem_map.mp ht3
  obtain ⟨t1, ht1, rfl⟩ := List.mem_map.mp ht2
  obtain ⟨t0, ht0, rfl⟩ := List.mem_map.mp ht1
  obtain ⟨L1, hL1, A2, hA2mem, hk2eq, rfl⟩ := mem_merge.mp ht0
  obtain ⟨q, hq0, A1, hA1mem, hk1eq, rfl⟩ := mem_merge.mp hL1
  rw [mem_sortRowsBy] at hq0
  have hcq : rowCols q = cols0 := hwf q hq0
  refine ⟨q, hq0, ?_, ?_, ?_⟩
  · intro c hc hcr
    have hc1 : ¬(c = "i_bar") := fun h => hcr (by rw [h]; simp [reservedI])
    have hc2 : ¬(c = "lcl") := fun h => hcr (by rw [h]; simp [reservedI])
    have hc3 : ¬(c = "ucl") := fun h => hcr (by rw [h]; simp [reservedI])
    have hc4 : ¬(c = "sc_weight") := fun h => hcr (by rw [h]; simp [reservedI])
    simp only [getCol_setWith_ne, ne_eq, not_false_iff, hc1, hc2, hc3, hc4,
      getCol_append_ite, mergeRow, rowCols_append, hcq, List.mem_append, hc,
      if_true, true_or]
  · simp only [getCol_setWith_ne, ne_eq, String.reduceEq, not_false_iff,
      getCol_append_ite, mergeRow, rowCols_append, hcq, List.mem_append, hval,
      if_true, true_or]
  · simp only [getCol_setWith_ne, getCol_setWith_same, ne_eq, String.reduceEq,
      not_false_iff, getCol_append_ite, mergeRow, rowCols_append, hcq,
      List.mem_append, hval, if_true, true_or]

/-! ### Top-level case analysis of the three operations -/

theorem i_chart_cases {dat : DF α} {f s : String} {ms : Bool} {strats : List String}
    {out : DF α} (h : i_chart_limits dat f s ms strats = some out) :
    out = (i_chart_single (dat.map (setWith "val" fun r => getCol r f)) f s).map
        (selectCols ((dat.headD []).map Prod.fst ++ ["i_bar", "lcl", "ucl", "sc_weight"])) ∨
    (strats ≠ [] ∧
      out = (i_chart_strat (dat.map (setWith "val" fun r => getCol r f)) f s strats).map
        (selectCols ((dat.headD []).map Prod.fst ++ ["i_bar", "lcl", "ucl", "sc_weight"]))) := by
  cases ms with
  | false =>
    simp only [i_chart_limits, Bool.false_eq_true, if_false, Option.some.injEq] at h
    exact Or.inl h.symm
  | true =>
    simp only [i_chart_limits, if_true] at h
    rcases hs : strats.length with _ | n
    · rw [hs] at h
      simp at h
    · rw [hs] at h
      simp only [Nat.succ_ne_zero, if_false, Option.some.injEq] at h
      refine Or.inr ⟨?_, h.symm⟩
      intro he
      rw [he] at hs
      simp at hs

theorem p_chart_cases {sqrtFn : α → α} {dat : DF α} {num den s : String} {ms : Bool}
    {strats : List String} {out : DF α}
    (h : p_chart_limits sqrtFn dat num den s ms strats = some out) :
    out = (p_single_path sqrtFn
        (dat.map (setWith "val" fun r => getCol r num / getCol r den)) num den s).map
        (selectCols ((dat.headD []).map Prod.fst ++
          ["p_bar", "lcl", "ucl", "sc_weight", "lcl_prime", "ucl_prime", "sc_weight_prime"])) ∨
    (strats ≠ [] ∧
      out = (p_strat_path sqrtFn
        (dat.map (setWith "val" fun r => getCol r num / getCol r den)) num den s strats).map
        (selectCols ((dat.headD []).map Prod.fst ++
          ["p_bar", "lcl", "ucl", "sc_weight", "lcl_prime", "ucl_prime", "sc_weight_prime"]))) := by
  cases ms with
  | false =>
    simp only [p_chart_limits, if_true, Option.some.injEq] at h
    exact Or.inl h.symm
  | true =>
    simp only [p_chart_limits, Bool.true_eq_false, if_false] at h
    rcases hs : strats.length with _ | n
    · rw [hs] at h
      simp at h
    · rw [hs] at h
      simp only [Nat.succ_ne_zero, if_false, Option.some.injEq] at h
      refine Or.inr ⟨?_, h.symm⟩
      intro he
      rw [he] at hs
      simp at hs

theorem u_chart_cases {sqrtFn : α → α} {dat : DF α} {num den s : String} {ms : Bool}
    {strats : List String} {out : DF α}
    (h : u_chart_limits sqrtFn dat num den s ms strats = some out) :
    out = (u_single_path sqrtFn
        (dat.map (setWith "val" fun r => getCol r num / getCol r den)) num den s).map
        (selectCols ((dat.headD []).map Prod.fst ++
          ["u_bar", "lcl", "ucl", "sc_weight", "lcl_prime", "ucl_prime", "sc_weight_prime"])) ∨
    (strats ≠ [] ∧
      out = (u_strat_path sqrtFn
        (dat.map (setWith "val" fun r => getCol r num / getCol r den)) num den s strats).map
        (selectCols ((dat.headD []).map Prod.fst ++
          ["u_bar", "lcl", "ucl", "sc_weight", "lcl_prime", "ucl_prime", "sc_weight_prime"]))) := by
  cases ms with
  | false =>
    simp only [u_chart_limits, if_true, Option.some.injEq] at h
    exact Or.inl h.symm
  | true =>
    simp only [u_chart_limits, Bool.true_eq_false, if_false] at h
    rcases hs : strats.length with _ | n
    · rw [hs] at h
      simp at h
    · rw [hs] at h
      simp only [Nat.succ_ne_zero, if_false, Option.some.injEq] at h
      refine Or.inr ⟨?_, h.symm⟩
      intro he
      rw [he] at hs
      simp at hs

/-- The first row's column names are the shared schema. -/
theorem headD_cols {dat : DF α} {cols0 : List String} (hwf : HasCols dat cols0)
    {t : Row α} (ht : t ∈ dat) : (dat.headD []).map Prod.fst = cols0 := by
  cases dat with
  | nil => cases ht
  | cons d l => exact hwf d (List.mem_cons_self d l)

/-- Overwriting an existing column does not change the schema. -/
theorem hasCols_setWith_mem {dat : DF α} {cols0 : List String} (hwf : HasCols dat cols0)
    {c : String} (hc : c ∈ cols0) (F : Row α → α) :
    HasCols (dat.map (setWith c F)) cols0 := by
  intro r hr
  obtain ⟨t, ht, rfl⟩ := List.mem_map.mp hr
  rw [rowCols_setWith, hwf t ht, if_pos hc]

/-- Writing a fresh column appends it at the end of the schema. -/
theorem hasCols_setWith_new {dat : DF α} {cols0 : List String} (hwf : HasCols dat cols0)
    {c : String} (hc : c ∉ cols0) (F : Row α → α) :
    HasCols (dat.map (setWith c F)) (cols0 ++ [c]) := by
  intro r hr
  obtain ⟨t, ht, rfl⟩ := List.mem_map.mp hr
  rw [rowCols_setWith, hwf t ht, if_neg hc]

/-! ### Claim theorems -/

/-- Claim C7: with `multi_strats = True` and an empty `strats` list, each
of the three operations reports the configuration error and returns no
output at all (modelled as `none`), before any computation (the non-list
arm of the source's check is unrepresentable for a typed list argument). -/
theorem c7_empty_strats_rejected (sqrtFn : α → α) (dat : DF α)
    (focal num den sortv : String) :
    i_chart_limits dat focal sortv true [] = none ∧
    p_chart_limits sqrtFn dat num den sortv true [] = none ∧
    u_chart_limits sqrtFn dat num den sortv true [] = none :=
  ⟨rfl, rfl, rfl⟩

/-- Claim C9: with `multi_strats = False` the `strats` argument has no
influence whatsoever on any of the three operations. -/
theorem c9_strats_ignored_when_single (sqrtFn : α → α) (dat : DF α)
    (focal num den sortv : String) (s1 s2 : List String) :
    i_chart_limits dat focal sortv false s1 = i_chart_limits dat focal sortv false s2 ∧
    p_chart_limits sqrtFn dat num den sortv false s1 =
      p_chart_limits sqrtFn dat num den sortv false s2 ∧
    u_chart_limits sqrtFn dat num den sortv false s1 =
      u_chart_limits sqrtFn dat num den sortv false s2 :=
  ⟨rfl, rfl, rfl⟩

set_option maxRecDepth 100000 in
unseal Rat.sub Rat.add Rat.mul Rat.inv Rat.ofScientific in
/-- Claim C8 (code bug witness): on a single-row input the moving-range
count `n - 1` is zero, yet the I operation silently returns a table
(with the degenerate limits of the total-division embedding; pandas
produces NaN limits) instead of failing with a division error as the
specification requires. -/
theorem c8_single_row_is_silent :
    ((([[("x", (7 : ℚ)), ("t", 1)]] : DF ℚ).length : ℚ) - 1 = 0) ∧
    i_chart_limits ([[("x", (7 : ℚ)), ("t", 1)]] : DF ℚ) "x" "t" false [] =
      some [[("x", 7), ("t", 1), ("i_bar", 7), ("lcl", 7), ("ucl", 7), ("sc_weight", 0)]] := by
  constructor
  · norm_num
  · decide

set_option maxRecDepth 100000 in
unseal Rat.sub Rat.add Rat.mul Rat.inv Rat.ofScientific in
/-- Claim C1 counterexample: on focal values `[10, 12, 11, 50, 9]` the
screening threshold is `3.27 x 20.75 = 67.8525`, not `67.85`; the moving
ranges `39` and `41` lie below it and are retained, so the screened
estimate stays `83/4 = 20.75` rather than `3/2`, and the row with value
`50` (row index 3) gets `sc_weight = 0`, not a strictly positive one. -/
theorem c1_scenario_counterexample :
    ul_mr ([10, 12, 11, 50, 9] : List ℚ) = 27141 / 400 ∧
    ¬(ul_mr ([10, 12, 11, 50, 9] : List ℚ) = 1357 / 20) ∧
    mrRetained ([10, 12, 11, 50, 9] : List ℚ) = [2, 1, 39, 41] ∧
    ¬(mr_bar ([10, 12, 11, 50, 9] : List ℚ) = 3 / 2) ∧
    ¬(0 < getCol (((i_chart_limits
        ([[("x", (10 : ℚ)), ("t", 1)], [("x", 12), ("t", 2)], [("x", 11), ("t", 3)],
          [("x", 50), ("t", 4)], [("x", 9), ("t", 5)]] : DF ℚ)
        "x" "t" false []).getD []).getD 3 []) "sc_weight") := by
  refine ⟨by decide, by decide, by decide, by decide, by decide⟩

set_option maxRecDepth 100000 in
unseal Rat.sub Rat.add Rat.mul Rat.inv Rat.ofScientific in
/-- Claim C1 (amended): on the spec's I-model scenario the engine computes
moving ranges `[_, 2, 1, 39, 41]`, initial estimate `83/4 = 20.75`,
threshold `67.8525`, retains all four moving ranges (none exceeds the
threshold), keeps the screened estimate at `20.75`, and produces center
`18.4`, `lcl = -36.795`, `ucl = 73.595` and `sc_weight = 0` for every
row. -/
theorem c1_scenario_amended :
    mrList ([10, 12, 11, 50, 9] : List ℚ) = [2, 1, 39, 41] ∧
    mr0_bar ([10, 12, 11, 50, 9] : List ℚ) = 83 / 4 ∧
    ul_mr ([10, 12, 11, 50, 9] : List ℚ) = 27141 / 400 ∧
    mrRetained ([10, 12, 11, 50, 9] : List ℚ) = [2, 1, 39, 41] ∧
    mr_bar ([10, 12, 11, 50, 9] : List ℚ) = 83 / 4 ∧
    i_chart_limits
        ([[("x", (10 : ℚ)), ("t", 1)], [("x", 12), ("t", 2)], [("x", 11), ("t", 3)],
          [("x", 50), ("t", 4)], [("x", 9), ("t", 5)]] : DF ℚ) "x" "t" false [] =
      some [
        [("x", 10), ("t", 1), ("i_bar", 92/5), ("lcl", -7359/200), ("ucl", 14719/200),
          ("sc_weight", 0)],
        [("x", 12), ("t", 2), ("i_bar", 92/5), ("lcl", -7359/200), ("ucl", 14719/200),
          ("sc_weight", 0)],
        [("x", 11), ("t", 3), ("i_bar", 92/5), ("lcl", -7359/200), ("ucl", 14719/200),
          ("sc_weight", 0)],
        [("x", 50), ("t", 4), ("i_bar", 92/5), ("lcl", -7359/200), ("ucl", 14719/200),
          ("sc_weight", 0)],
        [("x", 9), ("t", 5), ("i_bar", 92/5), ("lcl", -7359/200), ("ucl", 14719/200),
          ("sc_weight", 0)]] := by
  refine ⟨by decide, by decide, by decide, by decide, by decide, by decide⟩

/-- Claim C4: for every group of at least two rows, the screened
dispersion estimate of the two-pass moving-range procedure (the shared
screen used by the I, P-prime and U-prime computations) never exceeds the
unscreened initial estimate. -/
theorem c4_screening_monotone (vals : List α) (h : 2 ≤ vals.length) :
    mr_bar vals ≤ mr0_bar vals :=
  mr_bar_le_mr0_bar h

set_option maxRecDepth 100000 in
unseal Rat.sub Rat.add Rat.mul Rat.inv Rat.ofScientific in
/-- Claim C4 witness. -/
theorem c4_screening_monotone_witness :
    2 ≤ ([0, 0, 0, 0, 0, 10] : List ℚ).length ∧
    mr_bar ([0, 0, 0, 0, 0, 10] : List ℚ) ≤ mr0_bar ([0, 0, 0, 0, 0, 10] : List ℚ) :=
  ⟨by decide, c4_screening_monotone ([0, 0, 0, 0, 0, 10] : List ℚ) (by decide)⟩

set_option maxRecDepth 100000 in
unseal Rat.sub Rat.add Rat.mul Rat.inv Rat.ofScientific in
/-- Claim C6 counterexample: the I operation's output holds its center
line in a column named `i_bar`, and no column named `center` exists in
the output (the concrete run below has two output rows with schema
`x, t, i_bar, lcl, ucl, sc_weight`). -/
theorem c6_center_counterexample :
    ((i_chart_limits ([[("x", (5 : ℚ)), ("t", 1)], [("x", 6), ("t", 2)]] : DF ℚ)
        "x" "t" false []).getD []).length = 2 ∧
    "i_bar" ∈ rowCols (((i_chart_limits
        ([[("x", (5 : ℚ)), ("t", 1)], [("x", 6), ("t", 2)]] : DF ℚ)
        "x" "t" false []).getD []).getD 0 []) ∧
    ¬("center" ∈ rowCols (((i_chart_limits
        ([[("x", (5 : ℚ)), ("t", 1)], [("x", 6), ("t", 2)]] : DF ℚ)
        "x" "t" false []).getD []).getD 0 [])) := by
  refine ⟨by decide, by decide, by decide⟩

/-- Claim C6 (amended): every output row of each of the three operations
carries exactly the input schema (the first row's column names) followed
by the computed columns — named `i_bar` (I), `p_bar` (P) or `u_bar` (U)
for the center line, never `center` — plus `lcl`, `ucl`, `sc_weight`,
and for P/U also `lcl_prime`, `ucl_prime`, `sc_weight_prime`. -/
theorem c6_output_schema (sqrtFn : α → α) (dat : DF α)
    (focal num den sortv : String) (ms : Bool) (strats : List String) (out : DF α) :
    (i_chart_limits dat focal sortv ms strats = some out →
      ∀ r ∈ out, rowCols r =
        (dat.headD []).map Prod.fst ++ ["i_bar", "lcl", "ucl", "sc_weight"]) ∧
    (p_chart_limits sqrtFn dat num den sortv ms strats = some out →
      ∀ r ∈ out, rowCols r = (dat.headD []).map Prod.fst ++
        ["p_bar", "lcl", "ucl", "sc_weight", "lcl_prime", "ucl_prime", "sc_weight_prime"]) ∧
    (u_chart_limits sqrtFn dat num den sortv ms strats = some out →
      ∀ r ∈ out, rowCols r = (dat.headD []).map Prod.fst ++
        ["u_bar", "lcl", "ucl", "sc_weight", "lcl_prime", "ucl_prime", "sc_weight_prime"]) := by
  refine ⟨?_, ?_, ?_⟩
  · intro h r hr
    rcases i_chart_cases h with ho | ho
    · rw [ho] at hr
      obtain ⟨T, hT, rfl⟩ := List.mem_map.mp hr
      exact rowCols_selectCols _ _
    · rw [ho.2] at hr
      obtain ⟨T, hT, rfl⟩ := List.mem_map.mp hr
      exact rowCols_selectCols _ _
  · intro h r hr
    rcases p_chart_cases h with ho | ho
    · rw [ho] at hr
      obtain ⟨T, hT, rfl⟩ := List.mem_map.mp hr
      exact rowCols_selectCols _ _
    · rw [ho.2] at hr
      obtain ⟨T, hT, rfl⟩ := List.mem_map.mp hr
      exact rowCols_selectCols _ _
  · intro h r hr
    rcases u_chart_cases h with ho | ho
    · rw [ho] at hr
      obtain ⟨T, hT, rfl⟩ := List.mem_map.mp hr
      exact rowCols_selectCols _ _
    · rw [ho.2] at hr
      obtain ⟨T, hT, rfl⟩ := List.mem_map.mp hr
      exact rowCols_selectCols _ _

set_option maxRecDepth 100000 in
unseal Rat.sub Rat.add Rat.mul Rat.inv Rat.ofScientific in
/-- Claim C6 witness: the schema contract instantiated on concrete runs
of each of the three operations. -/
theorem c6_output_schema_witness :
    rowCols (((i_chart_limits ([[("x", (5 : ℚ)), ("t", 1)], [("x", 6), ("t", 2)]] : DF ℚ)
        "x" "t" false []).getD []).getD 0 []) =
      ["x", "t", "i_bar", "lcl", "ucl", "sc_weight"] ∧
    rowCols (((p_chart_limits (fun q : ℚ => q)
        ([[("n", (1 : ℚ)), ("d", 4), ("t", 1)], [("n", 1), ("d", 4), ("t", 2)]] : DF ℚ)
        "n" "d" "t" false []).getD []).getD 0 []) =
      ["n", "d", "t", "p_bar", "lcl", "ucl", "sc_weight",
        "lcl_prime", "ucl_prime", "sc_weight_prime"] ∧
    rowCols (((u_chart_limits (fun q : ℚ => q)
        ([[("n", (1 : ℚ)), ("d", 4), ("t", 1)], [("n", 1), ("d", 4), ("t", 2)]] : DF ℚ)
        "n" "d" "t" false []).getD []).getD 0 []) =
      ["n", "d", "t", "u_bar", "lcl", "ucl", "sc_weight",
        "lcl_prime", "ucl_prime", "sc_weight_prime"] := by
  refine ⟨?_, ?_, ?_⟩
  · have h := (c6_output_schema (fun q : ℚ => q)
        ([[("x", (5 : ℚ)), ("t", 1)], [("x", 6), ("t", 2)]] : DF ℚ)
        "x" "x" "x" "t" false []
        ((i_chart_limits ([[("x", (5 : ℚ)), ("t", 1)], [("x", 6), ("t", 2)]] : DF ℚ)
          "x" "t" false []).getD [])).1 rfl
    rw [h _ (by decide)]
    decide
  · have h := (c6_output_schema (fun q : ℚ => q)
        ([[("n", (1 : ℚ)), ("d", 4), ("t", 1)], [("n", 1), ("d", 4), ("t", 2)]] : DF ℚ)
        "n" "n" "d" "t" false []
        ((p_chart_limits (fun q : ℚ => q)
          ([[("n", (1 : ℚ)), ("d", 4), ("t", 1)], [("n", 1), ("d", 4), ("t", 2)]] : DF ℚ)
          "n" "d" "t" false []).getD [])).2.1 rfl
    rw [h _ (by decide)]
    decide
  · have h := (c6_output_schema (fun q : ℚ => q)
        ([[("n", (1 : ℚ)), ("d", 4), ("t", 1)], [("n", 1), ("d", 4), ("t", 2)]] : DF ℚ)
        "n" "n" "d" "t" false []
        ((u_chart_limits (fun q : ℚ => q)
          ([[("n", (1 : ℚ)), ("d", 4), ("t", 1)], [("n", 1), ("d", 4), ("t", 2)]] : DF ℚ)
          "n" "d" "t" false []).getD [])).2.2 rfl
    rw [h _ (by decide)]
    decide

set_option maxRecDepth 100000 in
unseal Rat.sub Rat.add Rat.mul Rat.inv Rat.ofScientific in
/-- Claim C10 counterexample: `val` is not the only caller column the
engine clobbers — a caller column named `p_zval` (an internal working
name) is also overwritten: on the run below its input value `99` comes
out as the computed z-score `0`. -/
theorem c10_val_only_counterexample :
    getCol (((p_chart_limits (fun q : ℚ => q)
        ([[("n", (1 : ℚ)), ("d", 4), ("t", 1), ("p_zval", 99)],
          [("n", 1), ("d", 4), ("t", 2), ("p_zval", 99)]] : DF ℚ)
        "n" "d" "t" false []).getD []).getD 0 []) "p_zval" = 0 ∧
    ¬(getCol (((p_chart_limits (fun q : ℚ => q)
        ([[("n", (1 : ℚ)), ("d", 4), ("t", 1), ("p_zval", 99)],
          [("n", 1), ("d", 4), ("t", 2), ("p_zval", 99)]] : DF ℚ)
        "n" "d" "t" false []).getD []).getD 0 []) "p_zval" = 99) := by
  refine ⟨by decide, by decide⟩

/-- Claim C10 (amended): a caller column named `val` is overwritten by the
engine's working column — every output row stems from an input row `t`
whose output `val` cell holds the focal value (I) or the ratio
numerator/denominator (P/U) of `t` — and every caller column whose name is
not an internal working name of the model passes through unchanged. -/
theorem c10_val_overwrite (sqrtFn : α → α) (dat : DF α) (cols0 : List String)
    (focal num den sortv : String) (ms : Bool) (strats : List String) (out : DF α)
    (hwf : HasCols dat cols0) (hval : "val" ∈ cols0) :
    ((∀ c ∈ cols0, c = "val" ∨ c ∉ reservedI) →
      i_chart_limits dat focal sortv ms strats = some out →
      ∀ r ∈ out, ∃ t ∈ dat,
        getCol r "val" = getCol t focal ∧
        ∀ c ∈ cols0, c ∉ reservedI → getCol r c = getCol t c) ∧
    ((∀ c ∈ cols0, c = "val" ∨ c ∉ reservedP) → den ∉ reservedP →
      (∀ c ∈ strats, c ∉ reservedP) → (∀ c ∈ strats, c ∈ cols0) →
      p_chart_limits sqrtFn dat num den sortv ms strats = some out →
      ∀ r ∈ out, ∃ t ∈ dat,
        getCol r "val" = getCol t num / getCol t den ∧
        ∀ c ∈ cols0, c ∉ reservedP → getCol r c = getCol t c) ∧
    ((∀ c ∈ cols0, c = "val" ∨ c ∉ reservedU) →
      u_chart_limits sqrtFn dat num den sortv ms strats = some out →
      ∀ r ∈ out, ∃ t ∈ dat,
        getCol r "val" = getCol t num / getCol t den ∧
        ∀ c ∈ cols0, c ∉ reservedU → getCol r c = getCol t c) := by
  refine ⟨?_, ?_, ?_⟩
  · intro hdisj h r hr
    have hib : "i_bar" ∉ cols0 := fun hc => by
      rcases hdisj _ hc with h' | h'
      · exact absurd h' (by decide)
      · exact h' (by decide)
    have hlc : "lcl" ∉ cols0 := fun hc => by
      rcases hdisj _ hc with h' | h'
      · exact absurd h' (by decide)
      · exact h' (by decide)
    have hub : "ucl" ∉ cols0 := fun hc => by
      rcases hdisj _ hc with h' | h'
      · exact absurd h' (by decide)
      · exact h' (by decide)
    have hsw : "sc_weight" ∉ cols0 := fun hc => by
      rcases hdisj _ hc with h' | h'
      · exact absurd h' (by decide)
      · exact h' (by decide)
    rcases i_chart_cases h with ho | ho
    · rw [ho] at hr
      obtain ⟨T, hT, rfl⟩ := List.mem_map.mp hr
      obtain ⟨q, hq, hpass, hv, -⟩ := i_single_origin hT
      obtain ⟨t, ht, rfl⟩ := List.mem_map.mp hq
      have hhead := headD_cols hwf ht
      refine ⟨t, ht, ?_, ?_⟩
      · rw [getCol_selectCols_of_mem _
          (by rw [hhead]; exact List.mem_append_left _ hval)]
        rw [hv, getCol_setWith_same]
      · intro c hc hcr
        rw [getCol_selectCols_of_mem _
          (by rw [hhead]; exact List.mem_append_left _ hc)]
        rw [hpass c hcr, getCol_setWith_ne _ _ _ (fun he => hcr (by rw [he]; decide))]
    · rw [ho.2] at hr
      obtain ⟨T, hT, rfl⟩ := List.mem_map.mp hr
      have hwf0 := hasCols_setWith_mem hwf hval fun r => getCol r focal
      obtain ⟨q, hq, hpass, hv, -⟩ := i_strat_origin hwf0 hval hib hlc hub hsw hT
      obtain ⟨t, ht, rfl⟩ := List.mem_map.mp hq
      have hhead := headD_cols hwf ht
      refine ⟨t, ht, ?_, ?_⟩
      · rw [getCol_selectCols_of_mem _
          (by rw [hhead]; exact List.mem_append_left _ hval)]
        rw [hv, getCol_setWith_same]
      · intro c hc hcr
        rw [getCol_selectCols_of_mem _
          (by rw [hhead]; exact List.mem_append_left _ hc)]
        rw [hpass c hc hcr, getCol_setWith_ne _ _ _ (fun he => hcr (by rw [he]; decide))]
  · intro hdisj hden hsr hsc h r hr
    have hw1 : "p_bar_numer" ∉ cols0 := fun hc => by
      rcases hdisj _ hc with h' | h'
      · exact absurd h' (by decide)
      · exact h' (by decide)
    have hw2 : "p_bar_denom" ∉ cols0 := fun hc => by
      rcases hdisj _ hc with h' | h'
      · exact absurd h' (by decide)
      · exact h' (by decide)
    have hw3 : "p_bar" ∉ cols0 := fun hc => by
      rcases hdisj _ hc with h' | h'
      · exact absurd h' (by decide)
      · exact h' (by decide)
    have hw4 : "p_std" ∉ cols0 := fun hc => by
      rcases hdisj _ hc with h' | h'
      · exact absurd h' (by decide)
      · exact h' (by decide)
    have hw5 : "p_zval" ∉ cols0 := fun hc => by
      rcases hdisj _ hc with h' | h'
      · exact absurd h' (by decide)
      · exact h' (by decide)
    rcases p_chart_cases h with ho | ho
    · rw [ho] at hr
      obtain ⟨T, hT, rfl⟩ := List.mem_map.mp hr
      obtain ⟨q, hq, hpass, hv, -, -, -, -, -, -⟩ := p_single_origin hden hT
      obtain ⟨t, ht, rfl⟩ := List.mem_map.mp hq
      have hhead := headD_cols hwf ht
      refine ⟨t, ht, ?_, ?_⟩
      · rw [getCol_selectCols_of_mem _
          (by rw [hhead]; exact List.mem_append_left _ hval)]
        rw [hv, getCol_setWith_same]
      · intro c hc hcr
        rw [getCol_selectCols_of_mem _
          (by rw [hhead]; exact List.mem_append_left _ hc)]
        rw [hpass c hcr, getCol_setWith_ne _ _ _ (fun he => hcr (by rw [he]; decide))]
    · rw [ho.2] at hr
      obtain ⟨T, hT, rfl⟩ := List.mem_map.mp hr
      have hwf0 := hasCols_setWith_mem hwf hval fun r => getCol r num / getCol r den
      obtain ⟨q, hq, hpass, hv, -, -, -, -, -, -, -⟩ :=
        p_strat_origin hwf0 hval hw1 hw2 hw3 hw4 hw5 hden hsr hsc hT
      obtain ⟨t, ht, rfl⟩ := List.mem_map.mp hq
      have hhead := headD_cols hwf ht
      refine ⟨t, ht, ?_, ?_⟩
      · rw [getCol_selectCols_of_mem _
          (by rw [hhead]; exact List.mem_append_left _ hval)]
        rw [hv, getCol_setWith_same]
      · intro c hc hcr
        rw [getCol_selectCols_of_mem _
          (by rw [hhead]; exact List.mem_append_left _ hc)]
        rw [hpass c hc hcr, getCol_setWith_ne _ _ _ (fun he => hcr (by rw [he]; decide))]
  · intro hdisj h r hr
    have hw1 : "u_bar_numer" ∉ cols0 := fun hc => by
      rcases hdisj _ hc with h' | h'
      · exact absurd h' (by decide)
      · exact h' (by decide)
    have hw2 : "u_bar_denom" ∉ cols0 := fun hc => by
      rcases hdisj _ hc with h' | h'
      · exact absurd h' (by decide)
      · exact h' (by decide)
    have hw3 : "u_bar" ∉ cols0 := fun hc => by
      rcases hdisj _ hc with h' | h'
      · exact absurd h' (by decide)
      · exact h' (by decide)
    have hw4 : "u_std" ∉ cols0 := fun hc => by
      rcases hdisj _ hc with h' | h'
      · exact absurd h' (by decide)
      · exact h' (by decide)
    have hw5 : "u_zval" ∉ cols0 := fun hc => by
      rcases hdisj _ hc with h' | h'
      · exact absurd h' (by decide)
      · exact h' (by decide)
    rcases u_chart_cases h with ho | ho
    · rw [ho] at hr
      obtain ⟨T, hT, rfl⟩ := List.mem_map.mp hr
      obtain ⟨q, hq, hpass, hv, -, -⟩ := u_single_origin hT
      obtain ⟨t, ht, rfl⟩ := List.mem_map.mp hq
      have hhead := headD_cols hwf ht
      refine ⟨t, ht, ?_, ?_⟩
      · rw [getCol_selectCols_of_mem _
          (by rw [hhead]; exact List.mem_append_left _ hval)]
        rw [hv, getCol_setWith_same]
      · intro c hc hcr
        rw [getCol_selectCols_of_mem _
          (by rw [hhead]; exact List.mem_append_left _ hc)]
        rw [hpass c hcr, getCol_setWith_ne _ _ _ (fun he => hcr (by rw [he]; decide))]
    · rw [ho.2] at hr
      obtain ⟨T, hT, rfl⟩ := List.mem_map.mp hr
      have hwf0 := hasCols_setWith_mem hwf hval fun r => getCol r num / getCol r den
      obtain ⟨q, hq, hpass, hv, -, -⟩ :=
        u_strat_origin hwf0 hval hw1 hw2 hw3 hw4 hw5 hT
      obtain ⟨t, ht, rfl⟩ := List.mem_map.mp hq
      have hhead := headD_cols hwf ht
      refine ⟨t, ht, ?_, ?_⟩
      · rw [getCol_selectCols_of_mem _
          (by rw [hhead]; exact List.mem_append_left _ hval)]
        rw [hv, getCol_setWith_same]
      · intro c hc hcr
        rw [getCol_selectCols_of_mem _
          (by rw [hhead]; exact List.mem_append_left _ hc)]
        rw [hpass c hc hcr, getCol_setWith_ne _ _ _ (fun he => hcr (by rw [he]; decide))]

set_option maxRecDepth 100000 in
unseal Rat.sub Rat.add Rat.mul Rat.inv Rat.ofScientific in
/-- Claim C10 witness: the overwrite/passthrough contract instantiated on
concrete runs of the three operations, each with an input `val` column. -/
theorem c10_val_overwrite_witness :
    HasCols ([[("x", (5 : ℚ)), ("t", 1), ("val", 99)],
      [("x", 6), ("t", 2), ("val", 99)]] : DF ℚ) ["x", "t", "val"] ∧
    (∃ t ∈ ([[("x", (5 : ℚ)), ("t", 1), ("val", 99)],
        [("x", 6), ("t", 2), ("val", 99)]] : DF ℚ),
      getCol (((i_chart_limits ([[("x", (5 : ℚ)), ("t", 1), ("val", 99)],
        [("x", 6), ("t", 2), ("val", 99)]] : DF ℚ) "x" "t" false []).getD []).getD 0 [])
          "val" = getCol t "x" ∧
      ∀ c ∈ ["x", "t", "val"], c ∉ reservedI →
        getCol (((i_chart_limits ([[("x", (5 : ℚ)), ("t", 1), ("val", 99)],
          [("x", 6), ("t", 2), ("val", 99)]] : DF ℚ) "x" "t" false []).getD []).getD 0 [])
            c = getCol t c) ∧
    (∃ t ∈ ([[("n", (1 : ℚ)), ("d", 4), ("t", 1), ("val", 99)],
        [("n", 1), ("d", 4), ("t", 2), ("val", 99)]] : DF ℚ),
      getCol (((p_chart_limits (fun q : ℚ => q)
        ([[("n", (1 : ℚ)), ("d", 4), ("t", 1), ("val", 99)],
          [("n", 1), ("d", 4), ("t", 2), ("val", 99)]] : DF ℚ)
        "n" "d" "t" false []).getD []).getD 0 []) "val" = getCol t "n" / getCol t "d" ∧
      ∀ c ∈ ["n", "d", "t", "val"], c ∉ reservedP →
        getCol (((p_chart_limits (fun q : ℚ => q)
          ([[("n", (1 : ℚ)), ("d", 4), ("t", 1), ("val", 99)],
            [("n", 1), ("d", 4), ("t", 2), ("val", 99)]] : DF ℚ)
          "n" "d" "t" false []).getD []).getD 0 []) c = getCol t c) ∧
    (∃ t ∈ ([[("n", (1 : ℚ)), ("d", 4), ("t", 1), ("val", 99)],
        [("n", 1), ("d", 4), ("t", 2), ("val", 99)]] : DF ℚ),
      getCol (((u_chart_limits (fun q : ℚ => q)
        ([[("n", (1 : ℚ)), ("d", 4), ("t", 1), ("val", 99)],
          [("n", 1), ("d", 4), ("t", 2), ("val", 99)]] : DF ℚ)
        "n" "d" "t" false []).getD []).getD 0 []) "val" = getCol t "n" / getCol t "d" ∧
      ∀ c ∈ ["n", "d", "t", "val"], c ∉ reservedU →
        getCol (((u_chart_limits (fun q : ℚ => q)
          ([[("n", (1 : ℚ)), ("d", 4), ("t", 1), ("val", 99)],
            [("n", 1), ("d", 4), ("t", 2), ("val", 99)]] : DF ℚ)
          "n" "d" "t" false []).getD []).getD 0 []) c = getCol t c) := by
  refine ⟨by unfold HasCols; decide, ?_, ?_, ?_⟩
  · exact (c10_val_overwrite (fun q : ℚ => q)
      ([[("x", (5 : ℚ)), ("t", 1), ("val", 99)],
        [("x", 6), ("t", 2), ("val", 99)]] : DF ℚ) ["x", "t", "val"]
      "x" "x" "x" "t" false []
      ((i_chart_limits ([[("x", (5 : ℚ)), ("t", 1), ("val", 99)],
        [("x", 6), ("t", 2), ("val", 99)]] : DF ℚ) "x" "t" false []).getD [])
      (by unfold HasCols; decide) (by decide)).1 (by decide) rfl _ (by decide)
  · exact (c10_val_overwrite (fun q : ℚ => q)
      ([[("n", (1 : ℚ)), ("d", 4), ("t", 1), ("val", 99)],
        [("n", 1), ("d", 4), ("t", 2), ("val", 99)]] : DF ℚ) ["n", "d", "t", "val"]
      "n" "n" "d" "t" false []
      ((p_chart_limits (fun q : ℚ => q)
        ([[("n", (1 : ℚ)), ("d", 4), ("t", 1), ("val", 99)],
          [("n", 1), ("d", 4), ("t", 2), ("val", 99)]] : DF ℚ)
        "n" "d" "t" false []).getD [])
      (by unfold HasCols; decide) (by decide)).2.1 (by decide) (by decide) (by decide) (by decide) rfl _
      (by decide)
  · exact (c10_val_overwrite (fun q : ℚ => q)
      ([[("n", (1 : ℚ)), ("d", 4), ("t", 1), ("val", 99)],
        [("n", 1), ("d", 4), ("t", 2), ("val", 99)]] : DF ℚ) ["n", "d", "t", "val"]
      "n" "n" "d" "t" false []
      ((u_chart_limits (fun q : ℚ => q)
        ([[("n", (1 : ℚ)), ("d", 4), ("t", 1), ("val", 99)],
          [("n", 1), ("d", 4), ("t", 2), ("val", 99)]] : DF ℚ)
        "n" "d" "t" false []).getD [])
      (by unfold HasCols; decide) (by decide)).2.2 (by decide) rfl _ (by decide)

set_option maxRecDepth 100000 in
unseal Rat.sub Rat.add Rat.mul Rat.inv Rat.ofScientific in
/-- Claim C3 counterexample: with zero screened dispersion the limits
collapse onto the center and the scorer's denominator vanishes — on the
run below (focal values `1,1,1,1,1,2`, where the screen discards the only
nonzero moving range) the first row's value lies strictly below its
`lcl`, yet its `sc_weight` is not strictly negative (the degenerate
quotient; in pandas this same cell is the non-finite `-inf`). -/
theorem c3_sign_counterexample :
    getCol (((i_chart_limits
        ([[("x", (1 : ℚ)), ("t", 1)], [("x", 1), ("t", 2)], [("x", 1), ("t", 3)],
          [("x", 1), ("t", 4)], [("x", 1), ("t", 5)], [("x", 2), ("t", 6)]] : DF ℚ)
        "x" "t" false []).getD []).getD 0 []) "x" <
      getCol (((i_chart_limits
        ([[("x", (1 : ℚ)), ("t", 1)], [("x", 1), ("t", 2)], [("x", 1), ("t", 3)],
          [("x", 1), ("t", 4)], [("x", 1), ("t", 5)], [("x", 2), ("t", 6)]] : DF ℚ)
        "x" "t" false []).getD []).getD 0 []) "lcl" ∧
    getCol (((i_chart_limits
        ([[("x", (1 : ℚ)), ("t", 1)], [("x", 1), ("t", 2)], [("x", 1), ("t", 3)],
          [("x", 1), ("t", 4)], [("x", 1), ("t", 5)], [("x", 2), ("t", 6)]] : DF ℚ)
        "x" "t" false []).getD []).getD 0 []) "sc_weight" = 0 := by
  refine ⟨by decide, by decide⟩

/-- Claim C3 (amended): every output row of each operation satisfies the
special-cause contract `scTrichotomy`: weight `0` within the limits, the
exact normalized-distance formula outside them, and the strict signs
whenever the scoring denominators are nonzero (`lcl < center`,
`center < ucl`); with zero dispersion the limits equal the center and the
strict-sign clauses are vacuous (the source then divides by zero). -/
theorem c3_sc_weight_signs (sqrtFn : α → α) (dat : DF α) (cols0 : List String)
    (focal num den sortv : String) (ms : Bool) (strats : List String) (out : DF α)
    (hwf : HasCols dat cols0) :
    ((∀ c ∈ cols0, c ∉ reservedI) → focal ∈ cols0 →
      i_chart_limits dat focal sortv ms strats = some out →
      ∀ r ∈ out, scTrichotomy (getCol r focal) (getCol r "lcl") (getCol r "ucl")
        (getCol r "i_bar") (getCol r "sc_weight")) ∧
    ((∀ c ∈ cols0, c ∉ reservedP) → num ∈ cols0 → den ∈ cols0 →
      (∀ c ∈ strats, c ∉ reservedP) → (∀ c ∈ strats, c ∈ cols0) →
      p_chart_limits sqrtFn dat num den sortv ms strats = some out →
      ∀ r ∈ out,
        scTrichotomy (getCol r num / getCol r den) (getCol r "lcl") (getCol r "ucl")
          (getCol r "p_bar") (getCol r "sc_weight") ∧
        scTrichotomy (getCol r num / getCol r den) (getCol r "lcl_prime")
          (getCol r "ucl_prime") (getCol r "p_bar") (getCol r "sc_weight_prime")) ∧
    ((∀ c ∈ cols0, c ∉ reservedU) → num ∈ cols0 → den ∈ cols0 →
      u_chart_limits sqrtFn dat num den sortv ms strats = some out →
      ∀ r ∈ out,
        scTrichotomy (getCol r num / getCol r den) (getCol r "lcl") (getCol r "ucl")
          (getCol r "u_bar") (getCol r "sc_weight") ∧
        scTrichotomy (getCol r num / getCol r den) (getCol r "lcl_prime")
          (getCol r "ucl_prime") (getCol r "u_bar") (getCol r "sc_weight_prime")) := by
  refine ⟨?_, ?_, ?_⟩
  · intro hdisj hfocal h r hr
    have hfr : focal ∉ reservedI := hdisj _ hfocal
    have fner : focal ≠ "val" := fun he => hfr (by rw [he]; decide)
    rcases i_chart_cases h with ho | ho
    · rw [ho] at hr
      obtain ⟨T, hT, rfl⟩ := List.mem_map.mp hr
      obtain ⟨q, hq, hpass, hv, hsw⟩ := i_single_origin hT
      obtain ⟨t, ht, rfl⟩ := List.mem_map.mp hq
      rw [headD_cols hwf ht]
      have m1 : focal ∈ cols0 ++ ["i_bar", "lcl", "ucl", "sc_weight"] :=
        List.mem_append_left _ hfocal
      have m2 : "lcl" ∈ cols0 ++ ["i_bar", "lcl", "ucl", "sc_weight"] :=
        List.mem_append_right _ (by decide)
      have m3 : "ucl" ∈ cols0 ++ ["i_bar", "lcl", "ucl", "sc_weight"] :=
        List.mem_append_right _ (by decide)
      have m4 : "i_bar" ∈ cols0 ++ ["i_bar", "lcl", "ucl", "sc_weight"] :=
        List.mem_append_right _ (by decide)
      have m5 : "sc_weight" ∈ cols0 ++ ["i_bar", "lcl", "ucl", "sc_weight"] :=
        List.mem_append_right _ (by decide)
      have hTf : getCol T focal = getCol t focal := by
        rw [hpass focal hfr, getCol_setWith_ne _ _ _ fner]
      simp only [getCol_setWith_same] at hsw
      rw [getCol_selectCols_of_mem T m1, getCol_selectCols_of_mem T m2,
        getCol_selectCols_of_mem T m3, getCol_selectCols_of_mem T m4,
        getCol_selectCols_of_mem T m5, hTf, hsw]
      exact scWeight_trichotomy _ _ _ _
    · rw [ho.2] at hr
      obtain ⟨T, hT, rfl⟩ := List.mem_map.mp hr
      have hnoval : "val" ∉ cols0 := fun hc => hdisj _ hc (by decide)
      have hwf0 := hasCols_setWith_new hwf hnoval fun r => getCol r focal
      have hib : "i_bar" ∉ cols0 ++ ["val"] := by
        intro hc
        rcases List.mem_append.mp hc with hc | hc
        · exact hdisj _ hc (by decide)
        · simp at hc
      have hlc : "lcl" ∉ cols0 ++ ["val"] := by
        intro hc
        rcases List.mem_append.mp hc with hc | hc
        · exact hdisj _ hc (by decide)
        · simp at hc
      have hub : "ucl" ∉ cols0 ++ ["val"] := by
        intro hc
        rcases List.mem_append.mp hc with hc | hc
        · exact hdisj _ hc (by decide)
        · simp at hc
      have hsw0 : "sc_weight" ∉ cols0 ++ ["val"] := by
        intro hc
        rcases List.mem_append.mp hc with hc | hc
        · exact hdisj _ hc (by decide)
        · simp at hc
      obtain ⟨q, hq, hpass, hv, hsw⟩ :=
        i_strat_origin hwf0 (by simp) hib hlc hub hsw0 hT
      obtain ⟨t, ht, rfl⟩ := List.mem_map.mp hq
      rw [headD_cols hwf ht]
      have m1 : focal ∈ cols0 ++ ["i_bar", "lcl", "ucl", "sc_weight"] :=
        List.mem_append_left _ hfocal
      have m2 : "lcl" ∈ cols0 ++ ["i_bar", "lcl", "ucl", "sc_weight"] :=
        List.mem_append_right _ (by decide)
      have m3 : "ucl" ∈ cols0 ++ ["i_bar", "lcl", "ucl", "sc_weight"] :=
        List.mem_append_right _ (by decide)
      have m4 : "i_bar" ∈ cols0 ++ ["i_bar", "lcl", "ucl", "sc_weight"] :=
        List.mem_append_right _ (by decide)
      have m5 : "sc_weight" ∈ cols0 ++ ["i_bar", "lcl", "ucl", "sc_weight"] :=
        List.mem_append_right _ (by decide)
      have hTf : getCol T focal = getCol t focal := by
        rw [hpass focal (List.mem_append_left _ hfocal) hfr,
          getCol_setWith_ne _ _ _ fner]
      simp only [getCol_setWith_same] at hsw
      rw [getCol_selectCols_of_mem T m1, getCol_selectCols_of_mem T m2,
        getCol_selectCols_of_mem T m3, getCol_selectCols_of_mem T m4,
        getCol_selectCols_of_mem T m5, hTf, hsw]
      exact scWeight_trichotomy _ _ _ _
  · intro hdisj hnum hden2 hsr hsc h r hr
    have hnr : num ∉ reservedP := hdisj _ hnum
    have hdr : den ∉ reservedP := hdisj _ hden2
    have nner : num ≠ "val" := fun he => hnr (by rw [he]; decide)
    have dner : den ≠ "val" := fun he => hdr (by rw [he]; decide)
    rcases p_chart_cases h with ho | ho
    · rw [ho] at hr
      obtain ⟨T, hT, rfl⟩ := List.mem_map.mp hr
      obtain ⟨q, hq, hpass, -, -, -, -, -, hsw, hswp⟩ := p_single_origin hdr hT
      obtain ⟨t, ht, rfl⟩ := List.mem_map.mp hq
      rw [headD_cols hwf ht]
      have m1 : num ∈ cols0 ++
          ["p_bar", "lcl", "ucl", "sc_weight", "lcl_prime", "ucl_prime", "sc_weight_prime"] :=
        List.mem_append_left _ hnum
      have m2 : den ∈ cols0 ++
          ["p_bar", "lcl", "ucl", "sc_weight", "lcl_prime", "ucl_prime", "sc_weight_prime"] :=
        List.mem_append_left _ hden2
      have m3 : "p_bar" ∈ cols0 ++
          ["p_bar", "lcl", "ucl", "sc_weight", "lcl_prime", "ucl_prime", "sc_weight_prime"] :=
        List.mem_append_right _ (by decide)
      have m4 : "lcl" ∈ cols0 ++
          ["p_bar", "lcl", "ucl", "sc_weight", "lcl_prime", "ucl_prime", "sc_weight_prime"] :=
        List.mem_append_right _ (by decide)
      have m5 : "ucl" ∈ cols0 ++
          ["p_bar", "lcl", "ucl", "sc_weight", "lcl_prime", "ucl_prime", "sc_weight_prime"] :=
        List.mem_append_right _ (by decide)
      have m6 : "lcl_prime" ∈ cols0 ++
          ["p_bar", "lcl", "ucl", "sc_weight", "lcl_prime", "ucl_prime", "sc_weight_prime"] :=
        List.mem_append_right _ (by decide)
      have m7 : "ucl_prime" ∈ cols0 ++
          ["p_bar", "lcl", "ucl", "sc_weight", "lcl_prime", "ucl_prime", "sc_weight_prime"] :=
        List.mem_append_right _ (by decide)
      have m8 : "sc_weight" ∈ cols0 ++
          ["p_bar", "lcl", "ucl", "sc_weight", "lcl_prime", "ucl_prime", "sc_weight_prime"] :=
        List.mem_append_right _ (by decide)
      have m9 : "sc_weight_prime" ∈ cols0 ++
          ["p_bar", "lcl", "ucl", "sc_weight", "lcl_prime", "ucl_prime", "sc_weight_prime"] :=
        List.mem_append_right _ (by decide)
      have hTn : getCol T num = getCol t num := by
        rw [hpass num hnr, getCol_setWith_ne _ _ _ nner]
      have hTd : getCol T den = getCol t den := by
        rw [hpass den hdr, getCol_setWith_ne _ _ _ dner]
      simp only [getCol_setWith_same] at hsw hswp
      rw [getCol_selectCols_of_mem T m1, getCol_selectCols_of_mem T m2,
        getCol_selectCols_of_mem T m3, getCol_selectCols_of_mem T m4,
        getCol_selectCols_of_mem T m5, getCol_selectCols_of_mem T m6,
        getCol_selectCols_of_mem T m7, getCol_selectCols_of_mem T m8,
        getCol_selectCols_of_mem T m9, hTn, hTd, hsw, hswp]
      exact ⟨scWeight_trichotomy _ _ _ _, scWeight_trichotomy _ _ _ _⟩
    · rw [ho.2] at hr
      obtain ⟨T, hT, rfl⟩ := List.mem_map.mp hr
      have hnoval : "val" ∉ cols0 := fun hc => hdisj _ hc (by decide)
      have hwf0 := hasCols_setWith_new hwf hnoval fun r => getCol r num / getCol r den
      have hb1 : "p_bar_numer" ∉ cols0 ++ ["val"] := by
        intro hc
        rcases List.mem_append.mp hc with hc | hc
        · exact hdisj _ hc (by decide)
        · simp at hc
      have hb2 : "p_bar_denom" ∉ cols0 ++ ["val"] := by
        intro hc
        rcases List.mem_append.mp hc with hc | hc
        · exact hdisj _ hc (by decide)
        · simp at hc
      have hb3 : "p_bar" ∉ cols0 ++ ["val"] := by
        intro hc
        rcases List.mem_append.mp hc with hc | hc
        · exact hdisj _ hc (by decide)
        · simp at hc
      have hb4 : "p_std" ∉ cols0 ++ ["val"] := by
        intro hc
        rcases List.mem_append.mp hc with hc | hc
        · exact hdisj _ hc (by decide)
        · simp at hc
      have hb5 : "p_zval" ∉ cols0 ++ ["val"] := by
        intro hc
        rcases List.mem_append.mp hc with hc | hc
        · exact hdisj _ hc (by decide)
        · simp at hc
      obtain ⟨q, hq, hpass, -, -, -, -, -, -, hsw, hswp⟩ :=
        p_strat_origin hwf0 (by simp) hb1 hb2 hb3 hb4 hb5 hdr hsr
          (fun c hc => List.mem_append_left _ (hsc c hc)) hT
      obtain ⟨t, ht, rfl⟩ := List.mem_map.mp hq
      rw [headD_cols hwf ht]
      have m1 : num ∈ cols0 ++
          ["p_bar", "lcl", "ucl", "sc_weight", "lcl_prime", "ucl_prime", "sc_weight_prime"] :=
        List.mem_append_left _ hnum
      have m2 : den ∈ cols0 ++
          ["p_bar", "lcl", "ucl", "sc_weight", "lcl_prime", "ucl_prime", "sc_weight_prime"] :=
        List.mem_append_left _ hden2
      have m3 : "p_bar" ∈ cols0 ++
          ["p_bar", "lcl", "ucl", "sc_weight", "lcl_prime", "ucl_prime", "sc_weight_prime"] :=
        List.mem_append_right _ (by decide)
      have m4 : "lcl" ∈ cols0 ++
          ["p_bar", "lcl", "ucl", "sc_weight", "lcl_prime", "ucl_prime", "sc_weight_prime"] :=
        List.mem_append_right _ (by decide)
      have m5 : "ucl" ∈ cols0 ++
          ["p_bar", "lcl", "ucl", "sc_weight", "lcl_prime", "ucl_prime", "sc_weight_prime"] :=
        List.mem_append_right _ (by decide)
      have m6 : "lcl_prime" ∈ cols0 ++
          ["p_bar", "lcl", "ucl", "sc_weight", "lcl_prime", "ucl_prime", "sc_weight_prime"] :=
        List.mem_append_right _ (by decide)
      have m7 : "ucl_prime" ∈ cols0 ++
          ["p_bar", "lcl", "ucl", "sc_weight", "lcl_prime", "ucl_prime", "sc_weight_prime"] :=
        List.mem_append_right _ (by decide)
      have m8 : "sc_weight" ∈ cols0 ++
          ["p_bar", "lcl", "ucl", "sc_weight", "lcl_prime", "ucl_prime", "sc_weight_prime"] :=
        List.mem_append_right _ (by decide)
      have m9 : "sc_weight_prime" ∈ cols0 ++
          ["p_bar", "lcl", "ucl", "sc_weight", "lcl_prime", "ucl_prime", "sc_weight_prime"] :=
        List.mem_append_right _ (by decide)
      have hTn : getCol T num = getCol t num := by
        rw [hpass num (List.mem_append_left _ hnum) hnr, getCol_setWith_ne _ _ _ nner]
      have hTd : getCol T den = getCol t den := by
        rw [hpass den (List.mem_append_left _ hden2) hdr, getCol_setWith_ne _ _ _ dner]
      simp only [getCol_setWith_same] at hsw hswp
      rw [getCol_selectCols_of_mem T m1, getCol_selectCols_of_mem T m2,
        getCol_selectCols_of_mem T m3, getCol_selectCols_of_mem T m4,
        getCol_selectCols_of_mem T m5, getCol_selectCols_of_mem T m6,
        getCol_selectCols_of_mem T m7, getCol_selectCols_of_mem T m8,
        getCol_selectCols_of_mem T m9, hTn, hTd, hsw, hswp]
      exact ⟨scWeight_trichotomy _ _ _ _, scWeight_trichotomy _ _ _ _⟩
  · intro hdisj hnum hden2 h r hr
    have hnr : num ∉ reservedU := hdisj _ hnum
    have hdr : den ∉ reservedU := hdisj _ hden2
    have nner : num ≠ "val" := fun he => hnr (by rw [he]; decide)
    have dner : den ≠ "val" := fun he => hdr (by rw [he]; decide)
    rcases u_chart_cases h with ho | ho
    · rw [ho] at hr
      obtain ⟨T, hT, rfl⟩ := List.mem_map.mp hr
      obtain ⟨q, hq, hpass, -, hsw, hswp⟩ := u_single_origin hT
      obtain ⟨t, ht, rfl⟩ := List.mem_map.mp hq
      rw [headD_cols hwf ht]
      have m1 : num ∈ cols0 ++
          ["u_bar", "lcl", "ucl", "sc_weight", "lcl_prime", "ucl_prime", "sc_weight_prime"] :=
        List.mem_append_left _ hnum
      have m2 : den ∈ cols0 ++
          ["u_bar", "lcl", "ucl", "sc_weight", "lcl_prime", "ucl_prime", "sc_weight_prime"] :=
        List.mem_append_left _ hden2
      have m3 : "u_bar" ∈ cols0 ++
          ["u_bar", "lcl", "ucl", "sc_weight", "lcl_prime", "ucl_prime", "sc_weight_prime"] :=
        List.mem_append_right _ (by decide)
      have m4 : "lcl" ∈ cols0 ++
          ["u_bar", "lcl", "ucl", "sc_weight", "lcl_prime", "ucl_prime", "sc_weight_prime"] :=
        List.mem_append_right _ (by decide)
      have m5 : "ucl" ∈ cols0 ++
          ["u_bar", "lcl", "ucl", "sc_weight", "lcl_prime", "ucl_prime", "sc_weight_prime"] :=
        List.mem_append_right _ (by decide)
      have m6 : "lcl_prime" ∈ cols0 ++
          ["u_bar", "lcl", "ucl", "sc_weight", "lcl_prime", "ucl_prime", "sc_weight_prime"] :=
        List.mem_append_right _ (by decide)
      have m7 : "ucl_prime" ∈ cols0 ++
          ["u_bar", "lcl", "ucl", "sc_weight", "lcl_prime", "ucl_prime", "sc_weight_prime"] :=
        List.mem_append_right _ (by decide)
      have m8 : "sc_weight" ∈ cols0 ++
          ["u_bar", "lcl", "ucl", "sc_weight", "lcl_prime", "ucl_prime", "sc_weight_prime"] :=
        List.mem_append_right _ (by decide)
      have m9 : "sc_weight_prime" ∈ cols0 ++
          ["u_bar", "lcl", "ucl", "sc_weight", "lcl_prime", "ucl_prime", "sc_weight_prime"] :=
        List.mem_append_right _ (by decide)
      have hTn : getCol T num = getCol t num := by
        rw [hpass num hnr, getCol_setWith_ne _ _ _ nner]
      have hTd : getCol T den = getCol t den := by
        rw [hpass den hdr, getCol_setWith_ne _ _ _ dner]
      simp only [getCol_setWith_same] at hsw hswp
      rw [getCol_selectCols_of_mem T m1, getCol_selectCols_of_mem T m2,
        getCol_selectCols_of_mem T m3, getCol_selectCols_of_mem T m4,
        getCol_selectCols_of_mem T m5, getCol_selectCols_of_mem T m6,
        getCol_selectCols_of_mem T m7, getCol_selectCols_of_mem T m8,
        getCol_selectCols_of_mem T m9, hTn, hTd, hsw, hswp]
      exact ⟨scWeight_trichotomy _ _ _ _, scWeight_trichotomy _ _ _ _⟩
    · rw [ho.2] at hr
      obtain ⟨T, hT, rfl⟩ := List.mem_map.mp hr
      have hnoval : "val" ∉ cols0 := fun hc => hdisj _ hc (by decide)
      have hwf0 := hasCols_setWith_new hwf hnoval fun r => getCol r num / getCol r den
      have hb1 : "u_bar_numer" ∉ cols0 ++ ["val"] := by
        intro hc
        rcases List.mem_append.mp hc with hc | hc
        · exact hdisj _ hc (by decide)
        · simp at hc
      have hb2 : "u_bar_denom" ∉ cols0 ++ ["val"] := by
        intro hc
        rcases List.mem_append.mp hc with hc | hc
        · exact hdisj _ hc (by decide)
        · simp at hc
      have hb3 : "u_bar" ∉ cols0 ++ ["val"] := by
        intro hc
        rcases List.mem_append.mp hc with hc | hc
        · exact hdisj _ hc (by decide)
        · simp at hc
      have hb4 : "u_std" ∉ cols0 ++ ["val"] := by
        intro hc
        rcases List.mem_append.mp hc with hc | hc
        · exact hdisj _ hc (by decide)
        · simp at hc
      have hb5 : "u_zval" ∉ cols0 ++ ["val"] := by
        intro hc
        rcases List.mem_append.mp hc with hc | hc
        · exact hdisj _ hc (by decide)
        · simp at hc
      obtain ⟨q, hq, hpass, -, hsw, hswp⟩ :=
        u_strat_origin hwf0 (by simp) hb1 hb2 hb3 hb4 hb5 hT
      obtain ⟨t, ht, rfl⟩ := List.mem_map.mp hq
      rw [headD_cols hwf ht]
      have m1 : num ∈ cols0 ++
          ["u_bar", "lcl", "ucl", "sc_weight", "lcl_prime", "ucl_prime", "sc_weight_prime"] :=
        List.mem_append_left _ hnum
      have m2 : den ∈ cols0 ++
          ["u_bar", "lcl", "ucl", "sc_weight", "lcl_prime", "ucl_prime", "sc_weight_prime"] :=
        List.mem_append_left _ hden2
      have m3 : "u_bar" ∈ cols0 ++
          ["u_bar", "lcl", "ucl", "sc_weight", "lcl_prime", "ucl_prime", "sc_weight_prime"] :=
        List.mem_append_right _ (by decide)
      have m4 : "lcl" ∈ cols0 ++
          ["u_bar", "lcl", "ucl", "sc_weight", "lcl_prime", "ucl_prime", "sc_weight_prime"] :=
        List.mem_append_right _ (by decide)
      have m5 : "ucl" ∈ cols0 ++
          ["u_bar", "lcl", "ucl", "sc_weight", "lcl_prime", "ucl_prime", "sc_weight_prime"] :=
        List.mem_append_right _ (by decide)
      have m6 : "lcl_prime" ∈ cols0 ++
          ["u_bar", "lcl", "ucl", "sc_weight", "lcl_prime", "ucl_prime", "sc_weight_prime"] :=
        List.mem_append_right _ (by decide)
      have m7 : "ucl_prime" ∈ cols0 ++
          ["u_bar", "lcl", "ucl", "sc_weight", "lcl_prime", "ucl_prime", "sc_weight_prime"] :=
        List.mem_append_right _ (by decide)
      have m8 : "sc_weight" ∈ cols0 ++
          ["u_bar", "lcl", "ucl", "sc_weight", "lcl_prime", "ucl_prime", "sc_weight_prime"] :=
        List.mem_append_right _ (by decide)
      have m9 : "sc_weight_prime" ∈ cols0 ++
          ["u_bar", "lcl", "ucl", "sc_weight", "lcl_prime", "ucl_prime", "sc_weight_prime"] :=
        List.mem_append_right _ (by decide)
      have hTn : getCol T num = getCol t num := by
        rw [hpass num (List.mem_append_left _ hnum) hnr, getCol_setWith_ne _ _ _ nner]
      have hTd : getCol T den = getCol t den := by
        rw [hpass den (List.mem_append_left _ hden2) hdr, getCol_setWith_ne _ _ _ dner]
      simp only [getCol_setWith_same] at hsw hswp
      rw [getCol_selectCols_of_mem T m1, getCol_selectCols_of_mem T m2,
        getCol_selectCols_of_mem T m3, getCol_selectCols_of_mem T m4,
        getCol_selectCols_of_mem T m5, getCol_selectCols_of_mem T m6,
        getCol_selectCols_of_mem T m7, getCol_selectCols_of_mem T m8,
        getCol_selectCols_of_mem T m9, hTn, hTd, hsw, hswp]
      exact ⟨scWeight_trichotomy _ _ _ _, scWeight_trichotomy _ _ _ _⟩

set_option maxRecDepth 100000 in
unseal Rat.sub Rat.add Rat.mul Rat.inv Rat.ofScientific in
/-- Claim C3 witness: the special-cause contract instantiated on concrete
runs of the three operations. -/
theorem c3_sc_weight_signs_witness :
    scTrichotomy
      (getCol (((i_chart_limits ([[("x", (5 : ℚ)), ("t", 1)], [("x", 6), ("t", 2)]] : DF ℚ)
        "x" "t" false []).getD []).getD 0 []) "x")
      (getCol (((i_chart_limits ([[("x", (5 : ℚ)), ("t", 1)], [("x", 6), ("t", 2)]] : DF ℚ)
        "x" "t" false []).getD []).getD 0 []) "lcl")
      (getCol (((i_chart_limits ([[("x", (5 : ℚ)), ("t", 1)], [("x", 6), ("t", 2)]] : DF ℚ)
        "x" "t" false []).getD []).getD 0 []) "ucl")
      (getCol (((i_chart_limits ([[("x", (5 : ℚ)), ("t", 1)], [("x", 6), ("t", 2)]] : DF ℚ)
        "x" "t" false []).getD []).getD 0 []) "i_bar")
      (getCol (((i_chart_limits ([[("x", (5 : ℚ)), ("t", 1)], [("x", 6), ("t", 2)]] : DF ℚ)
        "x" "t" false []).getD []).getD 0 []) "sc_weight") ∧
    scTrichotomy
      (getCol (((p_chart_limits (fun q : ℚ => q)
        ([[("n", (1 : ℚ)), ("d", 4), ("t", 1)], [("n", 1), ("d", 4), ("t", 2)]] : DF ℚ)
        "n" "d" "t" false []).getD []).getD 0 []) "n" /
       getCol (((p_chart_limits (fun q : ℚ => q)
        ([[("n", (1 : ℚ)), ("d", 4), ("t", 1)], [("n", 1), ("d", 4), ("t", 2)]] : DF ℚ)
        "n" "d" "t" false []).getD []).getD 0 []) "d")
      (getCol (((p_chart_limits (fun q : ℚ => q)
        ([[("n", (1 : ℚ)), ("d", 4), ("t", 1)], [("n", 1), ("d", 4), ("t", 2)]] : DF ℚ)
        "n" "d" "t" false []).getD []).getD 0 []) "lcl")
      (getCol (((p_chart_limits (fun q : ℚ => q)
        ([[("n", (1 : ℚ)), ("d", 4), ("t", 1)], [("n", 1), ("d", 4), ("t", 2)]] : DF ℚ)
        "n" "d" "t" false []).getD []).getD 0 []) "ucl")
      (getCol (((p_chart_limits (fun q : ℚ => q)
        ([[("n", (1 : ℚ)), ("d", 4), ("t", 1)], [("n", 1), ("d", 4), ("t", 2)]] : DF ℚ)
        "n" "d" "t" false []).getD []).getD 0 []) "p_bar")
      (getCol (((p_chart_limits (fun q : ℚ => q)
        ([[("n", (1 : ℚ)), ("d", 4), ("t", 1)], [("n", 1), ("d", 4), ("t", 2)]] : DF ℚ)
        "n" "d" "t" false []).getD []).getD 0 []) "sc_weight") ∧
    scTrichotomy
      (getCol (((u_chart_limits (fun q : ℚ => q)
        ([[("n", (1 : ℚ)), ("d", 4), ("t", 1)], [("n", 1), ("d", 4), ("t", 2)]] : DF ℚ)
        "n" "d" "t" false []).getD []).getD 0 []) "n" /
       getCol (((u_chart_limits (fun q : ℚ => q)
        ([[("n", (1 : ℚ)), ("d", 4), ("t", 1)], [("n", 1), ("d", 4), ("t", 2)]] : DF ℚ)
        "n" "d" "t" false []).getD []).getD 0 []) "d")
      (getCol (((u_chart_limits (fun q : ℚ => q)
        ([[("n", (1 : ℚ)), ("d", 4), ("t", 1)], [("n", 1), ("d", 4), ("t", 2)]] : DF ℚ)
        "n" "d" "t" false []).getD []).getD 0 []) "lcl_prime")
      (getCol (((u_chart_limits (fun q : ℚ => q)
        ([[("n", (1 : ℚ)), ("d", 4), ("t", 1)], [("n", 1), ("d", 4), ("t", 2)]] : DF ℚ)
        "n" "d" "t" false []).getD []).getD 0 []) "ucl_prime")
      (getCol (((u_chart_limits (fun q : ℚ => q)
        ([[("n", (1 : ℚ)), ("d", 4), ("t", 1)], [("n", 1), ("d", 4), ("t", 2)]] : DF ℚ)
        "n" "d" "t" false []).getD []).getD 0 []) "u_bar")
      (getCol (((u_chart_limits (fun q : ℚ => q)
        ([[("n", (1 : ℚ)), ("d", 4), ("t", 1)], [("n", 1), ("d", 4), ("t", 2)]] : DF ℚ)
        "n" "d" "t" false []).getD []).getD 0 []) "sc_weight_prime") := by
  refine ⟨?_, ?_, ?_⟩
  · exact (c3_sc_weight_signs (fun q : ℚ => q)
      ([[("x", (5 : ℚ)), ("t", 1)], [("x", 6), ("t", 2)]] : DF ℚ) ["x", "t"]
      "x" "x" "x" "t" false []
      ((i_chart_limits ([[("x", (5 : ℚ)), ("t", 1)], [("x", 6), ("t", 2)]] : DF ℚ)
        "x" "t" false []).getD [])
      (by unfold HasCols; decide)).1 (by decide) (by decide) rfl _ (by decide)
  · exact ((c3_sc_weight_signs (fun q : ℚ => q)
      ([[("n", (1 : ℚ)), ("d", 4), ("t", 1)], [("n", 1), ("d", 4), ("t", 2)]] : DF ℚ)
      ["n", "d", "t"] "n" "n" "d" "t" false []
      ((p_chart_limits (fun q : ℚ => q)
        ([[("n", (1 : ℚ)), ("d", 4), ("t", 1)], [("n", 1), ("d", 4), ("t", 2)]] : DF ℚ)
        "n" "d" "t" false []).getD [])
      (by unfold HasCols; decide)).2.1 (by decide) (by decide) (by decide) (by decide)
      (by decide) rfl _ (by decide)).1
  · exact ((c3_sc_weight_signs (fun q : ℚ => q)
      ([[("n", (1 : ℚ)), ("d", 4), ("t", 1)], [("n", 1), ("d", 4), ("t", 2)]] : DF ℚ)
      ["n", "d", "t"] "n" "n" "d" "t" false []
      ((u_chart_limits (fun q : ℚ => q)
        ([[("n", (1 : ℚ)), ("d", 4), ("t", 1)], [("n", 1), ("d", 4), ("t", 2)]] : DF ℚ)
        "n" "d" "t" false []).getD [])
      (by unfold HasCols; decide)).2.2 (by decide) (by decide) (by decide) rfl _
      (by decide)).2

/-- Claim C2: for every P-model run, the center `p_bar` of an output row
is the pooled rate of its group — sum of numerators over sum of
denominators, the whole table being one group when `multi_strats` is
false — and its standard limits are `p_bar -+ 3 * std` where the standard
deviation fed to them is `sqrtFn` (the model of numpy's `** .5`) applied
to exactly `p_bar * (1 - p_bar) / denominator[row]`. -/
theorem c2_pooled_center_and_limits (sqrtFn : α → α) (dat : DF α) (cols0 : List String)
    (num den sortv : String) (strats : List String) (out : DF α)
    (hwf : HasCols dat cols0) (hdisj : ∀ c ∈ cols0, c ∉ reservedP)
    (hnum : num ∈ cols0) (hden : den ∈ cols0) :
    (p_chart_limits sqrtFn dat num den sortv false strats = some out →
      ∀ r ∈ out,
        getCol r "p_bar" =
          (dat.map fun x => getCol x num).sum / (dat.map fun x => getCol x den).sum ∧
        getCol r "lcl" = getCol r "p_bar" -
          3 * sqrtFn (getCol r "p_bar" * (1 - getCol r "p_bar") / getCol r den) ∧
        getCol r "ucl" = getCol r "p_bar" +
          3 * sqrtFn (getCol r "p_bar" * (1 - getCol r "p_bar") / getCol r den)) ∧
    ((∀ c ∈ strats, c ∉ reservedP) → (∀ c ∈ strats, c ∈ cols0) →
      p_chart_limits sqrtFn dat num den sortv true strats = some out →
      ∀ r ∈ out, ∃ t ∈ dat,
        keyOf strats r = keyOf strats t ∧
        getCol r "p_bar" =
          ((dat.filter fun x => decide (keyOf strats x = keyOf strats t)).map
            fun x => getCol x num).sum /
          ((dat.filter fun x => decide (keyOf strats x = keyOf strats t)).map
            fun x => getCol x den).sum ∧
        getCol r "lcl" = getCol r "p_bar" -
          3 * sqrtFn (getCol r "p_bar" * (1 - getCol r "p_bar") / getCol r den) ∧
        getCol r "ucl" = getCol r "p_bar" +
          3 * sqrtFn (getCol r "p_bar" * (1 - getCol r "p_bar") / getCol r den)) := by
  have hnr : num ∉ reservedP := hdisj _ hnum
  have hdr : den ∉ reservedP := hdisj _ hden
  have nner : num ≠ "val" := fun he => hnr (by rw [he]; decide)
  have dner : den ≠ "val" := fun he => hdr (by rw [he]; decide)
  have hmap : ∀ (l : DF α) (c : String), c ≠ "val" →
      ((l.map (setWith "val" fun r => getCol r num / getCol r den)).map
        fun x => getCol x c) = l.map fun x => getCol x c := by
    intro l c hc
    rw [List.map_map]
    exact List.map_congr_left fun x hx => getCol_setWith_ne _ _ _ hc
  constructor
  · intro h r hr
    simp only [p_chart_limits, if_true, Option.some.injEq] at h
    rw [← h] at hr
    obtain ⟨T, hT, rfl⟩ := List.mem_map.mp hr
    obtain ⟨q, hq, hpass, -, hbar, hstd, hlcl, hucl, -, -⟩ := p_single_origin hdr hT
    obtain ⟨t, ht, rfl⟩ := List.mem_map.mp hq
    rw [headD_cols hwf ht]
    have m2 : den ∈ cols0 ++
        ["p_bar", "lcl", "ucl", "sc_weight", "lcl_prime", "ucl_prime", "sc_weight_prime"] :=
      List.mem_append_left _ hden
    have m3 : "p_bar" ∈ cols0 ++
        ["p_bar", "lcl", "ucl", "sc_weight", "lcl_prime", "ucl_prime", "sc_weight_prime"] :=
      List.mem_append_right _ (by decide)
    have m4 : "lcl" ∈ cols0 ++
        ["p_bar", "lcl", "ucl", "sc_weight", "lcl_prime", "ucl_prime", "sc_weight_prime"] :=
      List.mem_append_right _ (by decide)
    have m5 : "ucl" ∈ cols0 ++
        ["p_bar", "lcl", "ucl", "sc_weight", "lcl_prime", "ucl_prime", "sc_weight_prime"] :=
      List.mem_append_right _ (by decide)
    have hqd : getCol (setWith "val" (fun r => getCol r num / getCol r den) t) den =
        getCol T den := (hpass den hdr).symm
    refine ⟨?_, ?_, ?_⟩
    · rw [getCol_selectCols_of_mem T m3, hbar, hmap dat num nner, hmap dat den dner]
    · rw [getCol_selectCols_of_mem T m4, getCol_selectCols_of_mem T m3,
        getCol_selectCols_of_mem T m2, hlcl, hstd, hqd]
    · rw [getCol_selectCols_of_mem T m5, getCol_selectCols_of_mem T m3,
        getCol_selectCols_of_mem T m2, hucl, hstd, hqd]
  · intro hsr hsc h r hr
    have hvns : "val" ∉ strats := fun hv => hsr _ hv (by decide)
    simp only [p_chart_limits, Bool.true_eq_false, if_false] at h
    rcases hs : strats.length with _ | n
    · rw [hs] at h
      simp at h
    · rw [hs] at h
      simp only [Nat.succ_ne_zero, if_false, Option.some.injEq] at h
      rw [← h] at hr
      obtain ⟨T, hT, rfl⟩ := List.mem_map.mp hr
      have hnoval : "val" ∉ cols0 := fun hc => hdisj _ hc (by decide)
      have hwf0 := hasCols_setWith_new hwf hnoval fun r => getCol r num / getCol r den
      have hb1 : "p_bar_numer" ∉ cols0 ++ ["val"] := by
        intro hc
        rcases List.mem_append.mp hc with hc | hc
        · exact hdisj _ hc (by decide)
        · simp at hc
      have hb2 : "p_bar_denom" ∉ cols0 ++ ["val"] := by
        intro hc
        rcases List.mem_append.mp hc with hc | hc
        · exact hdisj _ hc (by decide)
        · simp at hc
      have hb3 : "p_bar" ∉ cols0 ++ ["val"] := by
        intro hc
        rcases List.mem_append.mp hc with hc | hc
        · exact hdisj _ hc (by decide)
        · simp at hc
      have hb4 : "p_std" ∉ cols0 ++ ["val"] := by
        intro hc
        rcases List.mem_append.mp hc with hc | hc
        · exact hdisj _ hc (by decide)
        · simp at hc
      have hb5 : "p_zval" ∉ cols0 ++ ["val"] := by
        intro hc
        rcases List.mem_append.mp hc with hc | hc
        · exact hdisj _ hc (by decide)
        · simp at hc
      obtain ⟨q, hq, hpass, -, hbar, hstd, hlcl, hucl, hkey, -, -⟩ :=
        p_strat_origin hwf0 (by simp) hb1 hb2 hb3 hb4 hb5 hdr hsr
          (fun c hc => List.mem_append_left _ (hsc c hc)) hT
      obtain ⟨t, ht, rfl⟩ := List.mem_map.mp hq
      rw [headD_cols hwf ht]
      have m2 : den ∈ cols0 ++
          ["p_bar", "lcl", "ucl", "sc_weight", "lcl_prime", "ucl_prime", "sc_weight_prime"] :=
        List.mem_append_left _ hden
      have m3 : "p_bar" ∈ cols0 ++
          ["p_bar", "lcl", "ucl", "sc_weight", "lcl_prime", "ucl_prime", "sc_weight_prime"] :=
        List.mem_append_right _ (by decide)
      have m4 : "lcl" ∈ cols0 ++
          ["p_bar", "lcl", "ucl", "sc_weight", "lcl_prime", "ucl_prime", "sc_weight_prime"] :=
        List.mem_append_right _ (by decide)
      have m5 : "ucl" ∈ cols0 ++
          ["p_bar", "lcl", "ucl", "sc_weight", "lcl_prime", "ucl_prime", "sc_weight_prime"] :=
        List.mem_append_right _ (by decide)
      have hqd : getCol (setWith "val" (fun r => getCol r num / getCol r den) t) den =
          getCol T den := (hpass den (List.mem_append_left _ hden) hdr).symm
      have hkeyq : keyOf strats (setWith "val"
          (fun r => getCol r num / getCol r den) t) = keyOf strats t :=
        keyOf_setWith _ _ _ hvns
      have e0 : keyOf strats (selectCols (cols0 ++
          ["p_bar", "lcl", "ucl", "sc_weight", "lcl_prime", "ucl_prime", "sc_weight_prime"]) T) =
          keyOf strats T :=
        List.map_congr_left fun c hc =>
          getCol_selectCols_of_mem T (List.mem_append_left _ (hsc c hc))
      refine ⟨t, ht, ?_, ?_, ?_, ?_⟩
      · rw [e0, hkey, hkeyq]
      · rw [getCol_selectCols_of_mem T m3, hbar, hkeyq,
          filter_key_map_setWith hvns,
          hmap (dat.filter fun r2 => decide (keyOf strats r2 = keyOf strats t)) num nner,
          hmap (dat.filter fun r2 => decide (keyOf strats r2 = keyOf strats t)) den dner]
      · rw [getCol_selectCols_of_mem T m4, getCol_selectCols_of_mem T m3,
          getCol_selectCols_of_mem T m2, hlcl, hstd, hqd]
      · rw [getCol_selectCols_of_mem T m5, getCol_selectCols_of_mem T m3,
          getCol_selectCols_of_mem T m2, hucl, hstd, hqd]

set_option maxRecDepth 100000 in
unseal Rat.sub Rat.add Rat.mul Rat.inv Rat.ofScientific in
/-- Claim C2 witness: the pooling/limit contract instantiated on a
single-stratum run and on a stratified run. -/
theorem c2_pooled_center_and_limits_witness :
    (∀ r ∈ (p_chart_limits (fun q : ℚ => q)
        ([[("n", (2 : ℚ)), ("d", 4), ("t", 1)], [("n", 2), ("d", 4), ("t", 2)]] : DF ℚ)
        "n" "d" "t" false []).getD [],
      getCol r "p_bar" =
        (([[("n", (2 : ℚ)), ("d", 4), ("t", 1)], [("n", 2), ("d", 4), ("t", 2)]] : DF ℚ).map
          fun x => getCol x "n").sum /
        (([[("n", (2 : ℚ)), ("d", 4), ("t", 1)], [("n", 2), ("d", 4), ("t", 2)]] : DF ℚ).map
          fun x => getCol x "d").sum ∧
      getCol r "lcl" = getCol r "p_bar" -
        3 * (fun q : ℚ => q) (getCol r "p_bar" * (1 - getCol r "p_bar") / getCol r "d") ∧
      getCol r "ucl" = getCol r "p_bar" +
        3 * (fun q : ℚ => q) (getCol r "p_bar" * (1 - getCol r "p_bar") / getCol r "d")) ∧
    (∀ r ∈ (p_chart_limits (fun q : ℚ => q)
        ([[("g", (1 : ℚ)), ("n", 2), ("d", 4), ("t", 1)],
          [("g", 1), ("n", 2), ("d", 4), ("t", 2)]] : DF ℚ)
        "n" "d" "t" true ["g"]).getD [],
      ∃ t ∈ ([[("g", (1 : ℚ)), ("n", 2), ("d", 4), ("t", 1)],
          [("g", 1), ("n", 2), ("d", 4), ("t", 2)]] : DF ℚ),
        keyOf ["g"] r = keyOf ["g"] t ∧
        getCol r "p_bar" =
          ((([[("g", (1 : ℚ)), ("n", 2), ("d", 4), ("t", 1)],
            [("g", 1), ("n", 2), ("d", 4), ("t", 2)]] : DF ℚ).filter
              fun x => decide (keyOf ["g"] x = keyOf ["g"] t)).map
            fun x => getCol x "n").sum /
          ((([[("g", (1 : ℚ)), ("n", 2), ("d", 4), ("t", 1)],
            [("g", 1), ("n", 2), ("d", 4), ("t", 2)]] : DF ℚ).filter
              fun x => decide (keyOf ["g"] x = keyOf ["g"] t)).map
            fun x => getCol x "d").sum ∧
        getCol r "lcl" = getCol r "p_bar" -
          3 * (fun q : ℚ => q) (getCol r "p_bar" * (1 - getCol r "p_bar") / getCol r "d") ∧
        getCol r "ucl" = getCol r "p_bar" +
          3 * (fun q : ℚ => q) (getCol r "p_bar" * (1 - getCol r "p_bar") / getCol r "d")) := by
  constructor
  · exact (c2_pooled_center_and_limits (fun q : ℚ => q)
      ([[("n", (2 : ℚ)), ("d", 4), ("t", 1)], [("n", 2), ("d", 4), ("t", 2)]] : DF ℚ)
      ["n", "d", "t"] "n" "d" "t" []
      ((p_chart_limits (fun q : ℚ => q)
        ([[("n", (2 : ℚ)), ("d", 4), ("t", 1)], [("n", 2), ("d", 4), ("t", 2)]] : DF ℚ)
        "n" "d" "t" false []).getD [])
      (by unfold HasCols; decide) (by decide) (by decide) (by decide)).1 rfl
  · exact (c2_pooled_center_and_limits (fun q : ℚ => q)
      ([[("g", (1 : ℚ)), ("n", 2), ("d", 4), ("t", 1)],
        [("g", 1), ("n", 2), ("d", 4), ("t", 2)]] : DF ℚ)
      ["g", "n", "d", "t"] "n" "d" "t" ["g"]
      ((p_chart_limits (fun q : ℚ => q)
        ([[("g", (1 : ℚ)), ("n", 2), ("d", 4), ("t", 1)],
          [("g", 1), ("n", 2), ("d", 4), ("t", 2)]] : DF ℚ)
        "n" "d" "t" true ["g"]).getD [])
      (by unfold HasCols; decide) (by decide) (by decide) (by decide)).2
      (by decide) (by decide) rfl

/-- A column write never removes a name from the schema. -/
theorem mem_rowCols_setWith {r : Row α} {c : String} (h : c ∈ rowCols r)
    (c' : String) (f : Row α → α) : c ∈ rowCols (setWith c' f r) := by
  rw [rowCols_setWith]
  split
  · exact h
  · exact List.mem_append_left _ h

/-- The grouped screen's two inner merges (first against the all-keys
threshold aggregate, then against the retained-moving-range aggregate)
preserve the row count whenever every group passes the second aggregate's
key filter. -/
theorem double_merge_length {base : DF α} {strats : List String}
    (hstr : ∀ x ∈ base, ∀ c ∈ strats, c ∈ rowCols x) (hnd : strats.Nodup)
    {c1 c2 : String} (h1 : c1 ∉ strats) (h2 : c2 ∉ strats)
    (f1 f2 : List α → α) (P : List α → Bool)
    (hP : ∀ x ∈ base, P (keyOf strats x) = true) :
    (merge (merge base (aggTable strats ((base.map (keyOf strats)).dedup) c1 f1) strats)
      (aggTable strats (((base.map (keyOf strats)).dedup).filter P) c2 f2)
      strats).length = base.length := by
  have hkeysnd : ((base.map (keyOf strats)).dedup).Nodup := List.nodup_dedup _
  have hlen1 : ∀ k ∈ (base.map (keyOf strats)).dedup, k.length = strats.length := by
    intro k hk
    obtain ⟨r, hr, rfl⟩ := List.mem_map.mp (List.mem_dedup.mp hk)
    exact keyOf_length strats r
  have hcov1 : ∀ l ∈ base, keyOf strats l ∈ (base.map (keyOf strats)).dedup := fun l hl =>
    List.mem_dedup.mpr (List.mem_map_of_mem _ hl)
  rw [merge_aggTable hnd hkeysnd hlen1 h1 hcov1]
  have hkeys2nd : (((base.map (keyOf strats)).dedup).filter P).Nodup := hkeysnd.filter P
  have hlen2 : ∀ k ∈ ((base.map (keyOf strats)).dedup).filter P, k.length = strats.length :=
    fun k hk => hlen1 k (List.mem_of_mem_filter hk)
  have hcov2 : ∀ l ∈ base.map (fun l => mergeRow strats l
        (strats.zip (keyOf strats l) ++ [(c1, f1 (keyOf strats l))])),
      keyOf strats l ∈ ((base.map (keyOf strats)).dedup).filter P := by
    intro l hl
    obtain ⟨x, hx, rfl⟩ := List.mem_map.mp hl
    rw [keyOf_mergeRow _ (hstr x hx)]
    exact List.mem_filter.mpr ⟨hcov1 x hx, hP x hx⟩
  rw [merge_aggTable hnd hkeys2nd hlen2 h2 hcov2, List.length_map, List.length_map]

/-- The stratified I pipeline is row-for-row when every stratum has at
least two rows (so every group retains a moving range and survives the
second inner merge). -/
theorem i_chart_strat_length (dat : DF α) (focal sortv : String) (strats : List String)
    (hnd : strats.Nodup) (hsr : ∀ c ∈ strats, c ∉ reservedI)
    (hstr : ∀ x ∈ dat, ∀ c ∈ strats, c ∈ rowCols x)
    (hgrp : ∀ t ∈ dat,
      2 ≤ (dat.filter fun x => decide (keyOf strats x = keyOf strats t)).length) :
    (i_chart_strat dat focal sortv strats).length = dat.length := by
  have hu1 : "ul_mr" ∉ strats := fun h => hsr _ h (by decide)
  have hu2 : "mr_bar" ∉ strats := fun h => hsr _ h (by decide)
  simp only [i_chart_strat, List.length_map]
  rw [double_merge_length ?_ hnd hu1 hu2 _ _ _ ?_]
  · exact length_sortRowsBy _ _
  · intro x hx c hc
    exact hstr x (mem_sortRowsBy.mp hx) c hc
  · intro x hx
    rw [decide_eq_true_eq]
    intro h0
    rw [List.length_eq_zero] at h0
    refine mrRetained_ne_nil ?_ h0
    rw [List.length_map, ((sortRowsBy_perm _ _).filter _).length_eq]
    exact hgrp x (mem_sortRowsBy.mp hx)

/-- The stratified P pipeline is row-for-row when every stratum has at
least two rows. -/
theorem p_strat_path_length (sqrtFn : α → α) (dat : DF α) (num den sortv : String)
    (strats : List String) (hnd : strats.Nodup) (hsr : ∀ c ∈ strats, c ∉ reservedP)
    (hstr : ∀ x ∈ dat, ∀ c ∈ strats, c ∈ rowCols x)
    (hgrp : ∀ t ∈ dat,
      2 ≤ (dat.filter fun x => decide (keyOf strats x = keyOf strats t)).length) :
    (p_strat_path sqrtFn dat num den sortv strats).length = dat.length := by
  have h1s : "p_bar_numer" ∉ strats := fun h => hsr _ h (by decide)
  have h2s : "p_bar_denom" ∉ strats := fun h => hsr _ h (by decide)
  have h3s : "p_bar" ∉ strats := fun h => hsr _ h (by decide)
  have h4s : "p_std" ∉ strats := fun h => hsr _ h (by decide)
  have h5s : "p_zval" ∉ strats := fun h => hsr _ h (by decide)
  have hu1 : "ul_mr0" ∉ strats := fun h => hsr _ h (by decide)
  have hu2 : "mr_bar_std" ∉ strats := fun h => hsr _ h (by decide)
  simp only [p_strat_path, pu_tail, List.length_map]
  rw [double_merge_length ?_ hnd hu1 hu2 _ _ _ ?_]
  · simp only [List.length_map, length_sortRowsBy]
  · intro x hx c hc
    obtain ⟨x5, hx5, rfl⟩ := List.mem_map.mp hx
    apply mem_rowCols_setWith
    obtain ⟨x4, hx4, rfl⟩ := List.mem_map.mp (mem_sortRowsBy.mp hx5)
    apply mem_rowCols_setWith
    obtain ⟨x3, hx3, rfl⟩ := List.mem_map.mp hx4
    apply mem_rowCols_setWith
    obtain ⟨x2, hx2, rfl⟩ := List.mem_map.mp hx3
    apply mem_rowCols_setWith
    obtain ⟨x1, hx1, rfl⟩ := List.mem_map.mp hx2
    apply mem_rowCols_setWith
    exact hstr x1 hx1 c hc
  · intro x hx
    rw [decide_eq_true_eq]
    obtain ⟨x5, hx5, rfl⟩ := List.mem_map.mp hx
    rw [keyOf_setWith _ _ _ h5s]
    obtain ⟨x4, hx4, rfl⟩ := List.mem_map.mp (mem_sortRowsBy.mp hx5)
    rw [keyOf_setWith _ _ _ h4s]
    obtain ⟨x3, hx3, rfl⟩ := List.mem_map.mp hx4
    rw [keyOf_setWith _ _ _ h3s]
    obtain ⟨x2, hx2, rfl⟩ := List.mem_map.mp hx3
    rw [keyOf_setWith _ _ _ h2s]
    obtain ⟨x1, hx1, rfl⟩ := List.mem_map.mp hx2
    rw [keyOf_setWith _ _ _ h1s]
    intro h0
    rw [List.length_eq_zero] at h0
    refine mrRetained_ne_nil ?_ h0
    rw [List.length_map, filter_key_map_setWith h5s, List.length_map,
      ((sortRowsBy_perm _ _).filter _).length_eq,
      filter_key_map_setWith h4s, List.length_map,
      filter_key_map_setWith h3s, List.length_map,
      filter_key_map_setWith h2s, List.length_map,
      filter_key_map_setWith h1s, List.length_map]
    exact hgrp x1 hx1

/-- The stratified U pipeline is row-for-row when every stratum has at
least two rows. -/
theorem u_strat_path_length (sqrtFn : α → α) (dat : DF α) (num den sortv : String)
    (strats : List String) (hnd : strats.Nodup) (hsr : ∀ c ∈ strats, c ∉ reservedU)
    (hstr : ∀ x ∈ dat, ∀ c ∈ strats, c ∈ rowCols x)
    (hgrp : ∀ t ∈ dat,
      2 ≤ (dat.filter fun x => decide (keyOf strats x = keyOf strats t)).length) :
    (u_strat_path sqrtFn dat num den sortv strats).length = dat.length := by
  have h1s : "u_bar_numer" ∉ strats := fun h => hsr _ h (by decide)
  have h2s : "u_bar_denom" ∉ strats := fun h => hsr _ h (by decide)
  have h3s : "u_bar" ∉ strats := fun h => hsr _ h (by decide)
  have h4s : "u_std" ∉ strats := fun h => hsr _ h (by decide)
  have h5s : "u_zval" ∉ strats := fun h => hsr _ h (by decide)
  have hu1 : "ul_mr0" ∉ strats := fun h => hsr _ h (by decide)
  have hu2 : "mr_bar_std" ∉ strats := fun h => hsr _ h (by decide)
  simp only [u_strat_path, pu_tail, List.length_map]
  rw [double_merge_length ?_ hnd hu1 hu2 _ _ _ ?_]
  · simp only [List.length_map, length_sortRowsBy]
  · intro x hx c hc
    obtain ⟨x5, hx5, rfl⟩ := List.mem_map.mp hx
    apply mem_rowCols_setWith
    obtain ⟨x4, hx4, rfl⟩ := List.mem_map.mp (mem_sortRowsBy.mp hx5)
    apply mem_rowCols_setWith
    obtain ⟨x3, hx3, rfl⟩ := List.mem_map.mp hx4
    apply mem_rowCols_setWith
    obtain ⟨x2, hx2, rfl⟩ := List.mem_map.mp hx3
    apply mem_rowCols_setWith
    obtain ⟨x1, hx1, rfl⟩ := List.mem_map.mp hx2
    apply mem_rowCols_setWith
    exact hstr x1 hx1 c hc
  · intro x hx
    rw [decide_eq_true_eq]
    obtain ⟨x5, hx5, rfl⟩ := List.mem_map.mp hx
    rw [keyOf_setWith _ _ _ h5s]
    obtain ⟨x4, hx4, rfl⟩ := List.mem_map.mp (mem_sortRowsBy.mp hx5)
    rw [keyOf_setWith _ _ _ h4s]
    obtain ⟨x3, hx3, rfl⟩ := List.mem_map.mp hx4
    rw [keyOf_setWith _ _ _ h3s]
    obtain ⟨x2, hx2, rfl⟩ := List.mem_map.mp hx3
    rw [keyOf_setWith _ _ _ h2s]
    obtain ⟨x1, hx1, rfl⟩ := List.mem_map.mp hx2
    rw [keyOf_setWith _ _ _ h1s]
    intro h0
    rw [List.length_eq_zero] at h0
    refine mrRetained_ne_nil ?_ h0
    rw [List.length_map, filter_key_map_setWith h5s, List.length_map,
      ((sortRowsBy_perm _ _).filter _).length_eq,
      filter_key_map_setWith h4s, List.length_map,
      filter_key_map_setWith h3s, List.length_map,
      filter_key_map_setWith h2s, List.length_map,
      filter_key_map_setWith h1s, List.length_map]
    exact hgrp x1 hx1

set_option maxRecDepth 100000 in
unseal Rat.sub Rat.add Rat.mul Rat.inv Rat.ofScientific in
/-- Claim C5 counterexample: a singleton stratum is silently dropped — on
the stratified I run below the group `g = 2` has one row, retains no
moving range, is missing from the second merge's aggregate, and its row
disappears: 3 input rows, 2 output rows. -/
theorem c5_singleton_drop_counterexample :
    ((i_chart_limits
        ([[("g", (1 : ℚ)), ("x", 5), ("t", 1)], [("g", 1), ("x", 6), ("t", 2)],
          [("g", 2), ("x", 7), ("t", 3)]] : DF ℚ)
        "x" "t" true ["g"]).getD []).length = 2 ∧
    ([[("g", (1 : ℚ)), ("x", 5), ("t", 1)], [("g", 1), ("x", 6), ("t", 2)],
      [("g", 2), ("x", 7), ("t", 3)]] : DF ℚ).length = 3 := by
  refine ⟨by decide, by decide⟩

/-- Claim C5 (amended): key-equality groups are reflexive-covering and
pairwise disjoint, the single-stratum paths of the three operations are
always row-for-row, and the stratified paths are row-for-row provided
every stratum has at least two rows (a singleton stratum retains no
moving range and its rows are dropped by the second inner merge). -/
theorem c5_row_preservation (sqrtFn : α → α) (dat : DF α) (cols0 : List String)
    (focal num den sortv : String) (strats : List String) (out : DF α)
    (hwf : HasCols dat cols0) (hnd : strats.Nodup) (hsc : ∀ c ∈ strats, c ∈ cols0)
    (hgrp : ∀ t ∈ dat,
      2 ≤ (dat.filter fun x => decide (keyOf strats x = keyOf strats t)).length) :
    (∀ t ∈ dat, t ∈ dat.filter fun x => decide (keyOf strats x = keyOf strats t)) ∧
    (∀ t1 ∈ dat, ∀ t2 ∈ dat, keyOf strats t1 ≠ keyOf strats t2 → ∀ x,
      x ∈ (dat.filter fun y => decide (keyOf strats y = keyOf strats t1)) →
      x ∉ (dat.filter fun y => decide (keyOf strats y = keyOf strats t2))) ∧
    (i_chart_limits dat focal sortv false strats = some out → out.length = dat.length) ∧
    ((∀ c ∈ strats, c ∉ reservedI) →
      i_chart_limits dat focal sortv true strats = some out → out.length = dat.length) ∧
    (p_chart_limits sqrtFn dat num den sortv false strats = some out →
      out.length = dat.length) ∧
    ((∀ c ∈ strats, c ∉ reservedP) →
      p_chart_limits sqrtFn dat num den sortv true strats = some out →
      out.length = dat.length) ∧
    (u_chart_limits sqrtFn dat num den sortv false strats = some out →
      out.length = dat.length) ∧
    ((∀ c ∈ strats, c ∉ reservedU) →
      u_chart_limits sqrtFn dat num den sortv true strats = some out →
      out.length = dat.length) := by
  refine ⟨?_, ?_, ?_, ?_, ?_, ?_, ?_, ?_⟩
  · intro t ht
    exact List.mem_filter.mpr ⟨ht, by simp⟩
  · intro t1 ht1 t2 ht2 hne x hx1 hx2
    have e1 : keyOf strats x = keyOf strats t1 :=
      of_decide_eq_true (List.mem_filter.mp hx1).2
    have e2 : keyOf strats x = keyOf strats t2 :=
      of_decide_eq_true (List.mem_filter.mp hx2).2
    exact hne (e1.symm.trans e2)
  · intro h
    simp only [i_chart_limits, Bool.false_eq_true, if_false, Option.some.injEq] at h
    rw [← h]
    simp only [List.length_map, i_chart_single, length_sortRowsBy]
  · intro hsr h
    have hvns : "val" ∉ strats := fun hv => hsr _ hv (by decide)
    simp only [i_chart_limits, if_true] at h
    rcases hs : strats.length with _ | n
    · rw [hs] at h
      simp at h
    · rw [hs] at h
      simp only [Nat.succ_ne_zero, if_false, Option.some.injEq] at h
      rw [← h, List.length_map]
      rw [i_chart_strat_length _ _ _ _ hnd hsr ?_ ?_]
      · exact List.length_map _ _
      · intro x hx c hc
        obtain ⟨t, ht, rfl⟩ := List.mem_map.mp hx
        exact mem_rowCols_setWith (by rw [hwf t ht]; exact hsc c hc) _ _
      · intro t' ht'
        obtain ⟨t, ht, rfl⟩ := List.mem_map.mp ht'
        rw [keyOf_setWith _ _ _ hvns, filter_key_map_setWith hvns, List.length_map]
        exact hgrp t ht
  · intro h
    simp only [p_chart_limits, if_true, Option.some.injEq] at h
    rw [← h]
    simp only [List.length_map, p_single_path, pu_tail, length_sortRowsBy]
  · intro hsr h
    have hvns : "val" ∉ strats := fun hv => hsr _ hv (by decide)
    simp only [p_chart_limits, Bool.true_eq_false, if_false] at h
    rcases hs : strats.length with _ | n
    · rw [hs] at h
      simp at h
    · rw [hs] at h
      simp only [Nat.succ_ne_zero, if_false, Option.some.injEq] at h
      rw [← h, List.length_map]
      rw [p_strat_path_length _ _ _ _ _ _ hnd hsr ?_ ?_]
      · exact List.length_map _ _
      · intro x hx c hc
        obtain ⟨t, ht, rfl⟩ := List.mem_map.mp hx
        exact mem_rowCols_setWith (by rw [hwf t ht]; exact hsc c hc) _ _
      · intro t' ht'
        obtain ⟨t, ht, rfl⟩ := List.mem_map.mp ht'
        rw [keyOf_setWith _ _ _ hvns, filter_key_map_setWith hvns, List.length_map]
        exact hgrp t ht
  · intro h
    simp only [u_chart_limits, if_true, Option.some.injEq] at h
    rw [← h]
    simp only [List.length_map, u_single_path, pu_tail, length_sortRowsBy]
  · intro hsr h
    have hvns : "val" ∉ strats := fun hv => hsr _ hv (by decide)
    simp only [u_chart_limits, Bool.true_eq_false, if_false] at h
    rcases hs : strats.length with _ | n
    · rw [hs] at h
      simp at h
    · rw [hs] at h
      simp only [Nat.succ_ne_zero, if_false, Option.some.injEq] at h
      rw [← h, List.length_map]
      rw [u_strat_path_length _ _ _ _ _ _ hnd hsr ?_ ?_]
      · exact List.length_map _ _
      · intro x hx c hc
        obtain ⟨t, ht, rfl⟩ := List.mem_map.mp hx
        exact mem_rowCols_setWith (by rw [hwf t ht]; exact hsc c hc) _ _
      · intro t' ht'
        obtain ⟨t, ht, rfl⟩ := List.mem_map.mp ht'
        rw [keyOf_setWith _ _ _ hvns, filter_key_map_setWith hvns, List.length_map]
        exact hgrp t ht

set_option maxRecDepth 100000 in
unseal Rat.sub Rat.add Rat.mul Rat.inv Rat.ofScientific in
/-- Claim C5 witness: row-count preservation instantiated on concrete
single-stratum and stratified runs of the three operations (two strata of
two rows each). -/
theorem c5_row_preservation_witness :
    ((i_chart_limits ([[("g", (1 : ℚ)), ("x", 5), ("n", 2), ("d", 4), ("t", 1)],
        [("g", 1), ("x", 6), ("n", 2), ("d", 4), ("t", 2)],
        [("g", 2), ("x", 7), ("n", 1), ("d", 4), ("t", 3)],
        [("g", 2), ("x", 9), ("n", 3), ("d", 4), ("t", 4)]] : DF ℚ)
      "x" "t" false ["g"]).getD []).length =
      ([[("g", (1 : ℚ)), ("x", 5), ("n", 2), ("d", 4), ("t", 1)],
        [("g", 1), ("x", 6), ("n", 2), ("d", 4), ("t", 2)],
        [("g", 2), ("x", 7), ("n", 1), ("d", 4), ("t", 3)],
        [("g", 2), ("x", 9), ("n", 3), ("d", 4), ("t", 4)]] : DF ℚ).length ∧
    ((i_chart_limits ([[("g", (1 : ℚ)), ("x", 5), ("n", 2), ("d", 4), ("t", 1)],
        [("g", 1), ("x", 6), ("n", 2), ("d", 4), ("t", 2)],
        [("g", 2), ("x", 7), ("n", 1), ("d", 4), ("t", 3)],
        [("g", 2), ("x", 9), ("n", 3), ("d", 4), ("t", 4)]] : DF ℚ)
      "x" "t" true ["g"]).getD []).length =
      ([[("g", (1 : ℚ)), ("x", 5), ("n", 2), ("d", 4), ("t", 1)],
        [("g", 1), ("x", 6), ("n", 2), ("d", 4), ("t", 2)],
        [("g", 2), ("x", 7), ("n", 1), ("d", 4), ("t", 3)],
        [("g", 2), ("x", 9), ("n", 3), ("d", 4), ("t", 4)]] : DF ℚ).length ∧
    ((p_chart_limits (fun q : ℚ => q)
      ([[("g", (1 : ℚ)), ("x", 5), ("n", 2), ("d", 4), ("t", 1)],
        [("g", 1), ("x", 6), ("n", 2), ("d", 4), ("t", 2)],
        [("g", 2), ("x", 7), ("n", 1), ("d", 4), ("t", 3)],
        [("g", 2), ("x", 9), ("n", 3), ("d", 4), ("t", 4)]] : DF ℚ)
      "n" "d" "t" true ["g"]).getD []).length =
      ([[("g", (1 : ℚ)), ("x", 5), ("n", 2), ("d", 4), ("t", 1)],
        [("g", 1), ("x", 6), ("n", 2), ("d", 4), ("t", 2)],
        [("g", 2), ("x", 7), ("n", 1), ("d", 4), ("t", 3)],
        [("g", 2), ("x", 9), ("n", 3), ("d", 4), ("t", 4)]] : DF ℚ).length ∧
    ((u_chart_limits (fun q : ℚ => q)
      ([[("g", (1 : ℚ)), ("x", 5), ("n", 2), ("d", 4), ("t", 1)],
        [("g", 1), ("x", 6), ("n", 2), ("d", 4), ("t", 2)],
        [("g", 2), ("x", 7), ("n", 1), ("d", 4), ("t", 3)],
        [("g", 2), ("x", 9), ("n", 3), ("d", 4), ("t", 4)]] : DF ℚ)
      "n" "d" "t" true ["g"]).getD []).length =
      ([[("g", (1 : ℚ)), ("x", 5), ("n", 2), ("d", 4), ("t", 1)],
        [("g", 1), ("x", 6), ("n", 2), ("d", 4), ("t", 2)],
        [("g", 2), ("x", 7), ("n", 1), ("d", 4), ("t", 3)],
        [("g", 2), ("x", 9), ("n", 3), ("d", 4), ("t", 4)]] : DF ℚ).length := by
  refine ⟨?_, ?_, ?_, ?_⟩
  · exact (c5_row_preservation (fun q : ℚ => q)
      ([[("g", (1 : ℚ)), ("x", 5), ("n", 2), ("d", 4), ("t", 1)],
        [("g", 1), ("x", 6), ("n", 2), ("d", 4), ("t", 2)],
        [("g", 2), ("x", 7), ("n", 1), ("d", 4), ("t", 3)],
        [("g", 2), ("x", 9), ("n", 3), ("d", 4), ("t", 4)]] : DF ℚ)
      ["g", "x", "n", "d", "t"] "x" "n" "d" "t" ["g"]
      ((i_chart_limits ([[("g", (1 : ℚ)), ("x", 5), ("n", 2), ("d", 4), ("t", 1)],
        [("g", 1), ("x", 6), ("n", 2), ("d", 4), ("t", 2)],
        [("g", 2), ("x", 7), ("n", 1), ("d", 4), ("t", 3)],
        [("g", 2), ("x", 9), ("n", 3), ("d", 4), ("t", 4)]] : DF ℚ)
        "x" "t" false ["g"]).getD [])
      (by unfold HasCols; decide) (by decide) (by decide) (by decide)).2.2.1 rfl
  · exact (c5_row_preservation (fun q : ℚ => q)
      ([[("g", (1 : ℚ)), ("x", 5), ("n", 2), ("d", 4), ("t", 1)],
        [("g", 1), ("x", 6), ("n", 2), ("d", 4), ("t", 2)],
        [("g", 2), ("x", 7), ("n", 1), ("d", 4), ("t", 3)],
        [("g", 2), ("x", 9), ("n", 3), ("d", 4), ("t", 4)]] : DF ℚ)
      ["g", "x", "n", "d", "t"] "x" "n" "d" "t" ["g"]
      ((i_chart_limits ([[("g", (1 : ℚ)), ("x", 5), ("n", 2), ("d", 4), ("t", 1)],
        [("g", 1), ("x", 6), ("n", 2), ("d", 4), ("t", 2)],
        [("g", 2), ("x", 7), ("n", 1), ("d", 4), ("t", 3)],
        [("g", 2), ("x", 9), ("n", 3), ("d", 4), ("t", 4)]] : DF ℚ)
        "x" "t" true ["g"]).getD [])
      (by unfold HasCols; decide) (by decide) (by decide) (by decide)).2.2.2.1
      (by decide) rfl
  · exact (c5_row_preservation (fun q : ℚ => q)
      ([[("g", (1 : ℚ)), ("x", 5), ("n", 2), ("d", 4), ("t", 1)],
        [("g", 1), ("x", 6), ("n", 2), ("d", 4), ("t", 2)],
        [("g", 2), ("x", 7), ("n", 1), ("d", 4), ("t", 3)],
        [("g", 2), ("x", 9), ("n", 3), ("d", 4), ("t", 4)]] : DF ℚ)
      ["g", "x", "n", "d", "t"] "x" "n" "d" "t" ["g"]
      ((p_chart_limits (fun q : ℚ => q)
        ([[("g", (1 : ℚ)), ("x", 5), ("n", 2), ("d", 4), ("t", 1)],
        [("g", 1), ("x", 6), ("n", 2), ("d", 4), ("t", 2)],
        [("g", 2), ("x", 7), ("n", 1), ("d", 4), ("t", 3)],
        [("g", 2), ("x", 9), ("n", 3), ("d", 4), ("t", 4)]] : DF ℚ)
        "n" "d" "t" true ["g"]).getD [])
      (by unfold HasCols; decide) (by decide) (by decide) (by decide)).2.2.2.2.2.1
      (by decide) rfl
  · exact (c5_row_preservation (fun q : ℚ => q)
      ([[("g", (1 : ℚ)), ("x", 5), ("n", 2), ("d", 4), ("t", 1)],
        [("g", 1), ("x", 6), ("n", 2), ("d", 4), ("t", 2)],
        [("g", 2), ("x", 7), ("n", 1), ("d", 4), ("t", 3)],
        [("g", 2), ("x", 9), ("n", 3), ("d", 4), ("t", 4)]] : DF ℚ)
      ["g", "x", "n", "d", "t"] "x" "n" "d" "t" ["g"]
      ((u_chart_limits (fun q : ℚ => q)
        ([[("g", (1 : ℚ)), ("x", 5), ("n", 2), ("d", 4), ("t", 1)],
        [("g", 1), ("x", 6), ("n", 2), ("d", 4), ("t", 2)],
        [("g", 2), ("x", 7), ("n", 1), ("d", 4), ("t", 3)],
        [("g", 2), ("x", 9), ("n", 3), ("d", 4), ("t", 4)]] : DF ℚ)
        "n" "d" "t" true ["g"]).getD [])
      (by unfold HasCols; decide) (by decide) (by decide) (by decide)).2.2.2.2.2.2.2
      (by decide) rfl

end Shewhart
